import Mathlib

/-!
Shallow embedding of `src/backend/scratch.py` (WebSync_JSON).

Python dicts are modelled as association lists that preserve insertion
order (new keys are appended at the end, assignment to an existing key
updates it in place), matching CPython dict semantics.  Python floats are
modelled as elements of a linear ordered field (instantiated at `ℚ` for
concrete evaluation and at `ℝ` when a claim mentions `log2`/`sqrt`);
`math.log2` and `np.sqrt`/`math.sqrt` enter the embedding as function
parameters, instantiated with `Real.logb 2` and `Real.sqrt` in the
theorems that mention them.  A lookup of a missing key (Python `KeyError`)
and an out-of-bounds numpy write (`IndexError`) are modelled by `Option`.
-/

/-- `alookup l k` models the Python dict read `l[k]` / `k in l`:
the value at the first entry whose key is `k`. -/
def alookup {κ β : Type} [DecidableEq κ] : List (κ × β) → κ → Option β
  | [], _ => none
  | (k, v) :: l, a => if a = k then some v else alookup l a

/-- `alookupD l k d`: dict read with a default for a missing key. -/
def alookupD {κ β : Type} [DecidableEq κ] (l : List (κ × β)) (k : κ) (d : β) : β :=
  (alookup l k).getD d

/-- `aupdate l k b` models `l[k] = b` when `k` is already a key of `l`:
the first entry with key `k` is replaced in place. -/
def aupdate {κ β : Type} [DecidableEq κ] : List (κ × β) → κ → β → List (κ × β)
  | [], _, _ => []
  | (k, v) :: l, a, b => if a = k then (k, b) :: l else (k, v) :: aupdate l a b

/-- `aerase l k` models `del l[k]`: the first entry with key `k` is removed. -/
def aerase {κ β : Type} [DecidableEq κ] : List (κ × β) → κ → List (κ × β)
  | [], _ => []
  | (k, v) :: l, a => if a = k then l else (k, v) :: aerase l a

/-! ## build_inverted_index (scratch.py lines 175-229) -/

/-- The loop state of `build_inverted_index`: the inverted index `iid`
under construction and, for the document currently being scanned, the
dictionary `first_inst` mapping each token already seen in this document
to the position of this document's entry inside `iid[tok]`. -/
structure BuildState where
  iid : List (String × List (ℕ × ℕ))
  fi : List (String × ℕ)

/-- One iteration of the inner token loop of `build_inverted_index`
(scratch.py lines 211-228), for token `tok` of document `m`. -/
def processTok (m : ℕ) (s : BuildState) (tok : String) : BuildState :=
  match alookup s.iid tok with
  | none =>
      -- token not yet a key of the index: iid[tok] = [(msg, 1)]; first_inst[tok] = 0
      ⟨s.iid ++ [(tok, [(m, 1)])], s.fi ++ [(tok, 0)]⟩
  | some postings =>
      match alookup s.fi tok with
      | none =>
          -- first instance for this doc: append (msg, 1); first_inst[tok] = len(iid[tok])-1
          ⟨aupdate s.iid tok (postings ++ [(m, 1)]), s.fi ++ [(tok, postings.length)]⟩
      | some k =>
          -- increment the count stored at position first_inst[tok]
          let curr := (postings.getD k (0, 0)).2
          ⟨aupdate s.iid tok (postings.set k (m, curr + 1)), s.fi⟩

/-- The body of the outer document loop of `build_inverted_index`:
scan the tokens of document `m` with a fresh `first_inst` dictionary. -/
def processDoc (iid : List (String × List (ℕ × ℕ))) (m : ℕ) (toks : List String) :
    List (String × List (ℕ × ℕ)) :=
  (toks.foldl (processTok m) ⟨iid, []⟩).iid

/-- `build_inverted_index` (scratch.py lines 175-229).  Documents are the
`tokenized_description` fields, enumerated from 0 in input order. -/
def build_inverted_index (msgs : List (List String)) : List (String × List (ℕ × ℕ)) :=
  msgs.enum.foldl (fun iid p => processDoc iid p.1 p.2) []

/-! ## compute_idf (scratch.py lines 231-263)

The weight written by the source is `math.log2(n_docs/(1 + term_df))`;
the weight function enters as the parameter `w` (instantiated with
`fun n df => Real.logb 2 (n / (1 + df))` in the theorems about it).
`min_df` is an `ℤ` because the source accepts any integer there, and the
document-frequency threshold `term_df/n_docs <= max_df_ratio` is the
exact-arithmetic reading of the Python float comparison. -/
def compute_idf {α : Type} (w : ℕ → ℕ → α) (inv_idx : List (String × List (ℕ × ℕ)))
    (n_docs : ℕ) (min_df : ℤ) (ratioMax : ℚ) : List (String × α) :=
  inv_idx.filterMap fun p =>
    let term_df : ℕ := p.2.length
    if ((term_df : ℚ) / (n_docs : ℚ) ≤ ratioMax ∧ min_df ≤ (term_df : ℤ)) then
      some (p.1, w n_docs term_df)
    else none

/-! ## compute_doc_norms (scratch.py lines 265-287) -/

section Scoring

variable {α : Type} [LinearOrderedField α]

/-- The inner accumulation `norms[doc] += (tf*score)**2` of
`compute_doc_norms`, for one in-vocabulary term with idf value `score`
and postings list `term_docs`.  A write outside the numpy array bounds
(doc index ≥ n_docs) is an `IndexError`, modelled by `none`. -/
def accumTermNorms (score : α) (norms : List α) (term_docs : List (ℕ × ℕ)) :
    Option (List α) :=
  term_docs.foldlM
    (fun ns dt =>
      if h : dt.1 < ns.length then
        some (ns.set dt.1 (ns.get ⟨dt.1, h⟩ + ((dt.2 : α) * score) ^ 2))
      else none)
    norms

/-- One iteration of the `for term in idf` loop of `compute_doc_norms`
(scratch.py lines 282-286): look up the term's postings (a `KeyError`,
modelled by `none`, when the term is absent) and accumulate. -/
def normStep (index : List (String × List (ℕ × ℕ))) (norms : List α)
    (p : String × α) : Option (List α) := do
  let term_docs ← alookup index p.1
  accumTermNorms p.2 norms term_docs

/-- `compute_doc_norms` (scratch.py lines 265-287): start from
`np.zeros(n_docs)`, accumulate `(tf*idf)²` over the postings of every
in-vocabulary term, and take the square root elementwise at the end.
`sqrt` models `np.sqrt`. -/
def compute_doc_norms (sqrt : α → α) (index : List (String × List (ℕ × ℕ)))
    (idf : List (String × α)) (n_docs : ℕ) : Option (List α) :=
  (idf.foldlM (normStep index) (List.replicate n_docs (0 : α))).map (List.map sqrt)

/-! ## accumulate_dot_scores (scratch.py lines 289-318) -/

/-- `doc_scores[doc] = v` if `doc` is a new key, else `doc_scores[doc] += v`
(scratch.py lines 314-317). -/
def addScore (sc : List (ℕ × α)) (doc : ℕ) (v : α) : List (ℕ × α) :=
  match alookup sc doc with
  | none => sc ++ [(doc, v)]
  | some old => aupdate sc doc (old + v)

/-- The body of the inner `for (doc, tf) in index[query_word]` loop of
`accumulate_dot_scores` (scratch.py lines 313-317): the `idf[query_word]`
lookup happens inside the loop body (a `KeyError`, modelled by `none`,
is only raised when the postings list is nonempty), and
`tf*idf[query_word]*query_word_count*idf[query_word]` is accumulated. -/
def scoreStep (idf : List (String × α)) (query_word : String)
    (query_word_count : α) (sc : List (ℕ × α)) (dt : ℕ × ℕ) :
    Option (List (ℕ × α)) := do
  let idfv ← alookup idf query_word
  pure (addScore sc dt.1 ((dt.2 : α) * idfv * query_word_count * idfv))

/-- One iteration of the outer `for query_word in query_word_counts` loop
of `accumulate_dot_scores`: `index[query_word]` raises `KeyError`
(modelled by `none`) when missing, then the postings are accumulated. -/
def termStep (index : List (String × List (ℕ × ℕ))) (idf : List (String × α))
    (doc_scores : List (ℕ × α)) (q : String × α) : Option (List (ℕ × α)) := do
  let postings ← alookup index q.1
  postings.foldlM (scoreStep idf q.1 q.2) doc_scores

/-- `accumulate_dot_scores` (scratch.py lines 289-318): term-at-a-time
accumulation of `tf*idf[w]*query_count[w]*idf[w]` into `doc_scores`. -/
def accumulate_dot_scores (query_word_counts : List (String × α))
    (index : List (String × List (ℕ × ℕ))) (idf : List (String × α)) :
    Option (List (ℕ × α)) :=
  query_word_counts.foldlM (termStep index idf) []

/-- The postings list of `term` in the index (empty when absent). -/
def postingsOf (index : List (String × List (ℕ × ℕ))) (term : String) :
    List (ℕ × ℕ) :=
  (alookup index term).getD []

/-- The term frequency of `term` in document `doc`, read off the inverted
index (0 when the document does not carry the term). -/
def tfOf (index : List (String × List (ℕ × ℕ))) (term : String) (doc : ℕ) : ℕ :=
  (alookup (postingsOf index term) doc).getD 0

/-- The idf weight of a term, 0 when out of vocabulary. -/
def idfD (idf : List (String × α)) (term : String) : α :=
  (alookup idf term).getD 0

/-- The score the specification assigns to document `doc`: the sum over
the query vector of `tf * idf[term] * query_count[term] * idf[term]`
(terms the document does not share contribute `tf = 0`). -/
def specScore (query_word_counts : List (String × α))
    (index : List (String × List (ℕ × ℕ))) (idf : List (String × α))
    (doc : ℕ) : α :=
  (query_word_counts.map fun p =>
    (tfOf index p.1 doc : α) * idfD idf p.1 * p.2 * idfD idf p.1).sum

/-! ## compute_cossim_for_webnovel (scratch.py lines 320-373) -/

/-- `dict(Counter(webnovel_unique_toks))` (scratch.py line 356): every
token of the deduplicated token list maps to the count 1.  `list(set(·))`
is modelled by `List.dedup` (the set iteration order is unspecified in
Python; no claim depends on it). -/
def initial_word_counts (toks : List String) : List (String × α) :=
  toks.dedup.map fun t => (t, (1 : α))

/-- The query-side loop of `compute_cossim_for_webnovel` (scratch.py
lines 358-363): accumulate the squared query norm over in-vocabulary
terms and delete out-of-vocabulary terms from the word-count dict.
Returns the final `(norm, webnovel_word_counts)` pair (norm not yet
square-rooted, exactly as the `norm` variable of the source). -/
def queryStep (idf : List (String × α)) (s : α × List (String × α))
    (term : String) : α × List (String × α) :=
  match alookup idf term, alookup s.2 term with
  | some iv, some c => (s.1 + (c * iv) ^ 2, s.2)
  | none, some _ => (s.1, aerase s.2 term)
  | _, none => s

/-- The final `(norm, webnovel_word_counts)` state of the loop. -/
def queryState (toks : List String) (idf : List (String × α)) :
    α × List (String × α) :=
  toks.dedup.foldl (queryStep idf) ((0 : α), initial_word_counts toks)

/-- `compute_cossim_for_webnovel` (scratch.py lines 320-373).
`sqrt` models `math.sqrt`.  `norms = math.sqrt(norm) * fanfic_norms` is
the elementwise scalar product; `norms[doc]` for `doc` outside the array
is an `IndexError`, modelled by `none`.  The final
`sorted(cossim, key=lambda x: x[0], reverse=True)` is Python's stable
descending sort, modelled by `List.insertionSort` with the reflexive
relation `b.1 ≤ a.1` (the unique stable descending sort), then `[:10]`.
There is no guard on a zero `norms[doc]`: the division is performed
unconditionally (in exact arithmetic `x / 0 = 0`; in the source's IEEE
arithmetic it yields `nan`/`inf`), and the document stays in the list. -/
def compute_cossim_for_webnovel (sqrt : α → α) (webnovel_toks : List String)
    (fanfic_inv_index : List (String × List (ℕ × ℕ)))
    (fanfic_idf : List (String × α)) (fanfic_norms : List α) :
    Option (List (α × ℕ)) := do
  let s := queryState webnovel_toks fanfic_idf
  let norms := fanfic_norms.map fun x => sqrt s.1 * x
  let doc_scores ← accumulate_dot_scores s.2 fanfic_inv_index fanfic_idf
  let cossim ← doc_scores.mapM fun p =>
    if h : p.1 < norms.length then
      some ((p.2 / norms.get ⟨p.1, h⟩, p.1))
    else none
  pure ((cossim.insertionSort fun a b => b.1 ≤ a.1).take 10)

end Scoring

/-! ## Edit distance (scratch.py lines 434-554)

Strings are modelled as `List Char`; Python `str.lower()` is modelled by
`Char.toLower` characterwise (they agree on the ASCII inputs of the
claims). -/

/-- `insertion_cost` (scratch.py lines 434-435). -/
def insertion_cost (_message : List Char) (_j : ℕ) : ℕ := 1

/-- `deletion_cost` (scratch.py lines 438-439). -/
def deletion_cost (_query : List Char) (_i : ℕ) : ℕ := 1

/-- `substitution_cost` (scratch.py lines 442-446): 0 when
`query[i-1] == message[j-1]`, else 1. -/
def substitution_cost (query message : List Char) (i j : ℕ) : ℕ :=
  if query.getD (i - 1) default = message.getD (j - 1) default then 0 else 1

/-- The chart filled by `edit_matrix` (scratch.py lines 449-484), as a
function of the cell `(i, j)`.  The extra fuel argument (always called
with fuel `i + j`) only makes the recursion structural so that concrete
cells evaluate inside the kernel; `chartF_stable` shows the fuel is
irrelevant, and `edit_matrix_succ_succ` recovers the source's
`chart[i, j] = min(chart[i-1, j] + del, chart[i, j-1] + ins,
chart[i-1, j-1] + sub)`. -/
def chartF (query message : List Char) (insC : List Char → ℕ → ℕ)
    (delC : List Char → ℕ → ℕ) (subC : List Char → List Char → ℕ → ℕ → ℕ) :
    ℕ → ℕ → ℕ → ℕ
  | _, 0, 0 => 0
  | f + 1, i + 1, 0 => chartF query message insC delC subC f i 0 + delC query (i + 1)
  | f + 1, 0, j + 1 => chartF query message insC delC subC f 0 j + insC message (j + 1)
  | f + 1, i + 1, j + 1 =>
      min (chartF query message insC delC subC f i (j + 1) + delC query (i + 1))
        (min (chartF query message insC delC subC f (i + 1) j + insC message (j + 1))
          (chartF query message insC delC subC f i j + subC query message (i + 1) (j + 1)))
  | 0, _ + 1, _ => 0
  | 0, 0, _ + 1 => 0

/-- `edit_matrix` (scratch.py lines 449-484): the value of the chart at
cell `(i, j)`. -/
def edit_matrix (query message : List Char) (insC : List Char → ℕ → ℕ)
    (delC : List Char → ℕ → ℕ) (subC : List Char → List Char → ℕ → ℕ → ℕ)
    (i j : ℕ) : ℕ :=
  chartF query message insC delC subC (i + j) i j

/-- `edit_distance` (scratch.py lines 487-513): lowercase both strings,
build the edit matrix, read off the final cell. -/
def edit_distance (query message : List Char) (insC : List Char → ℕ → ℕ)
    (delC : List Char → ℕ → ℕ) (subC : List Char → List Char → ℕ → ℕ → ℕ) : ℕ :=
  let q := query.map Char.toLower
  let m := message.map Char.toLower
  edit_matrix q m insC delC subC q.length m.length

/-- `edit_distance_search` (scratch.py lines 516-554): score every
message, then `result.sort(key=lambda tup: tup[0])` — Python's stable
ascending sort, modelled by `List.insertionSort` on the first component
(the unique stable ascending sort).  The function returns the whole
sorted list (`return result`); only the `print` shows `result[:10]`, and
the code after the `return` is unreachable. -/
def edit_distance_search (query : List Char) (msgs : List (List Char))
    (insC : List Char → ℕ → ℕ) (delC : List Char → ℕ → ℕ)
    (subC : List Char → List Char → ℕ → ℕ → ℕ) : List (ℕ × List Char) :=
  (msgs.map fun m => (edit_distance query m insC delC subC, m)).insertionSort
    fun a b => a.1 ≤ b.1

/-- Modelled from the spec: the standard Levenshtein distance
(&#34;minimum-cost sequence of single-character insertions, deletions, and
substitutions&#34; with unit costs, substitution free between equal
characters), written as the textbook recursion.  This is the spec-side
definition against which `edit_distance` is compared in C9. -/
def lev : List Char → List Char → ℕ
  | [], ys => ys.length
  | x :: xs, [] => (x :: xs).length
  | x :: xs, y :: ys =>
      min (lev xs (y :: ys) + 1)
        (min (lev (x :: xs) ys + 1) (lev xs ys + if x = y then 0 else 1))

/-! ## Association-list lemmas -/

section AssocLemmas

variable {κ β : Type} [DecidableEq κ]

theorem alookup_append (l₁ l₂ : List (κ × β)) (a : κ) :
    alookup (l₁ ++ l₂) a = (alookup l₁ a).orElse fun _ => alookup l₂ a := by
  induction l₁ with
  | nil => simp [alookup]
  | cons p l ih =>
      obtain ⟨k, v⟩ := p
      by_cases h : a = k <;> simp [alookup, h, ih]

theorem alookup_eq_none_iff (l : List (κ × β)) (a : κ) :
    alookup l a = none ↔ a ∉ l.map Prod.fst := by
  induction l with
  | nil => simp [alookup]
  | cons p l ih =>
      obtain ⟨k, v⟩ := p
      by_cases h : a = k <;> simp [alookup, h, ih]

theorem alookup_isSome_iff (l : List (κ × β)) (a : κ) :
    (alookup l a).isSome ↔ a ∈ l.map Prod.fst := by
  rw [Option.isSome_iff_ne_none, ne_eq, alookup_eq_none_iff, Decidable.not_not]

theorem alookup_aupdate (l : List (κ × β)) (k : κ) (b : β) (a : κ) :
    alookup (aupdate l k b) a =
      if a = k then (if (alookup l k).isSome then some b else none)
      else alookup l a := by
  induction l with
  | nil => by_cases h : a = k <;> simp [alookup, aupdate, h]
  | cons p l ih =>
      obtain ⟨k', v'⟩ := p
      by_cases hk : k = k'
      · subst hk
        by_cases ha : a = k <;> simp [alookup, aupdate, ha]
      · by_cases ha : a = k'
        · subst ha
          have h2 : ¬a = k := fun h => hk h.symm
          simp [alookup, aupdate, hk, h2]
        · by_cases hak : a = k
          · subst hak
            simp [alookup, aupdate, hk, ha, ih]
          · simp [alookup, aupdate, hk, ha, hak, ih]

theorem keys_aupdate (l : List (κ × β)) (k : κ) (b : β) :
    (aupdate l k b).map Prod.fst = l.map Prod.fst := by
  induction l with
  | nil => simp [aupdate]
  | cons p l ih =>
      obtain ⟨k', v'⟩ := p
      by_cases h : k = k' <;> simp [aupdate, h, ih]

theorem alookup_aerase_ne (l : List (κ × β)) (k a : κ) (h : a ≠ k) :
    alookup (aerase l k) a = alookup l a := by
  induction l with
  | nil => simp [aerase]
  | cons p l ih =>
      obtain ⟨k', v'⟩ := p
      by_cases hk : k = k'
      · subst hk
        simp [aerase, alookup, h]
      · have hk2 : ¬k = k' := hk
        by_cases ha : a = k' <;> simp [aerase, alookup, ha, ih, hk2]

theorem alookup_aerase_self (l : List (κ × β)) (k : κ)
    (hnd : (l.map Prod.fst).Nodup) :
    alookup (aerase l k) k = none := by
  induction l with
  | nil => simp [aerase, alookup]
  | cons p l ih =>
      obtain ⟨k', v'⟩ := p
      simp only [List.map_cons, List.nodup_cons] at hnd
      by_cases hk : k = k'
      · subst hk
        simp only [aerase, if_pos rfl]
        rw [alookup_eq_none_iff]
        exact hnd.1
      · simp [aerase, alookup, hk, ih hnd.2]

theorem alookup_map_const (l : List κ) (c : β) (a : κ) :
    alookup (l.map fun t => (t, c)) a = if a ∈ l then some c else none := by
  induction l with
  | nil => simp [alookup]
  | cons t l ih =>
      by_cases h : a = t <;> simp [alookup, h, ih]

end AssocLemmas

/-! ## compute_idf lemmas -/

theorem compute_idf_nil {α : Type} (w : ℕ → ℕ → α) (n_docs : ℕ) (min_df : ℤ)
    (mr : ℚ) : compute_idf w [] n_docs min_df mr = [] := rfl

theorem compute_idf_cons {α : Type} (w : ℕ → ℕ → α) (k : String)
    (pl : List (ℕ × ℕ)) (rest : List (String × List (ℕ × ℕ))) (n_docs : ℕ)
    (min_df : ℤ) (mr : ℚ) :
    compute_idf w ((k, pl) :: rest) n_docs min_df mr =
      if ((pl.length : ℚ) / (n_docs : ℚ) ≤ mr ∧ min_df ≤ (pl.length : ℤ)) then
        (k, w n_docs pl.length) :: compute_idf w rest n_docs min_df mr
      else compute_idf w rest n_docs min_df mr := by
  by_cases hc : ((pl.length : ℚ) / (n_docs : ℚ) ≤ mr ∧ min_df ≤ (pl.length : ℤ)) <;>
    simp [compute_idf, List.filterMap_cons, hc]

theorem compute_idf_lookup_none {α : Type} (w : ℕ → ℕ → α)
    (idx : List (String × List (ℕ × ℕ))) (n_docs : ℕ) (min_df : ℤ) (mr : ℚ)
    (t : String) (h : alookup idx t = none) :
    alookup (compute_idf w idx n_docs min_df mr) t = none := by
  induction idx with
  | nil => simp [compute_idf_nil, alookup]
  | cons p rest ih =>
      obtain ⟨k, pl⟩ := p
      by_cases ht : t = k
      · subst ht; simp [alookup] at h
      · simp only [alookup, if_neg ht] at h
        rw [compute_idf_cons]
        by_cases hc : ((pl.length : ℚ) / (n_docs : ℚ) ≤ mr ∧ min_df ≤ (pl.length : ℤ))
        · rw [if_pos hc]
          simpa [alookup, ht] using ih h
        · rw [if_neg hc]
          exact ih h

theorem compute_idf_lookup {α : Type} (w : ℕ → ℕ → α)
    (idx : List (String × List (ℕ × ℕ)))
    (hnd : (idx.map Prod.fst).Nodup) (n_docs : ℕ) (min_df : ℤ) (mr : ℚ)
    (t : String) :
    alookup (compute_idf w idx n_docs min_df mr) t =
      (alookup idx t).bind fun l =>
        if ((l.length : ℚ) / (n_docs : ℚ) ≤ mr ∧ min_df ≤ (l.length : ℤ)) then
          some (w n_docs l.length)
        else none := by
  induction idx with
  | nil => simp [compute_idf_nil, alookup]
  | cons p rest ih =>
      obtain ⟨k, pl⟩ := p
      simp only [List.map_cons, List.nodup_cons] at hnd
      rw [compute_idf_cons]
      by_cases ht : t = k
      · subst ht
        have hrest : alookup rest t = none := (alookup_eq_none_iff rest t).2 hnd.1
        by_cases hc : ((pl.length : ℚ) / (n_docs : ℚ) ≤ mr ∧ min_df ≤ (pl.length : ℤ))
        · rw [if_pos hc]
          simp [alookup, hc]
        · rw [if_neg hc]
          rw [compute_idf_lookup_none w rest n_docs min_df mr t hrest]
          simp [alookup, hc]
      · by_cases hc : ((pl.length : ℚ) / (n_docs : ℚ) ≤ mr ∧ min_df ≤ (pl.length : ℤ)) <;>
          [rw [if_pos hc]; rw [if_neg hc]] <;>
          simp [alookup, ht, ih hnd.2]

theorem compute_idf_mem_index {α : Type} (w : ℕ → ℕ → α)
    (idx : List (String × List (ℕ × ℕ))) (n_docs : ℕ) (min_df : ℤ) (mr : ℚ)
    (t : String) (v : α)
    (h : alookup (compute_idf w idx n_docs min_df mr) t = some v) :
    ∃ l, alookup idx t = some l := by
  induction idx with
  | nil => simp [compute_idf_nil, alookup] at h
  | cons p rest ih =>
      obtain ⟨k, pl⟩ := p
      by_cases ht : t = k
      · exact ⟨pl, by simp [alookup, ht]⟩
      · rw [compute_idf_cons] at h
        have h' : alookup (compute_idf w rest n_docs min_df mr) t = some v := by
          by_cases hc : ((pl.length : ℚ) / (n_docs : ℚ) ≤ mr ∧ min_df ≤ (pl.length : ℤ))
          · rw [if_pos hc] at h
            simpa [alookup, ht] using h
          · rwa [if_neg hc] at h
        obtain ⟨l, hl⟩ := ih h'
        exact ⟨l, by simpa [alookup, ht] using hl⟩

/-- C5: for every inverted index with distinct keys, every document count
`n_docs > 0` and every threshold pair, a term appears in the IDF table
returned by `compute_idf` iff its document frequency `df` (the length of
its postings list) satisfies `min_df ≤ df` and `df / n_docs ≤
max_df_ratio`, and its weight is exactly `log2(n_docs / (1 + df))`;
terms failing either bound are absent, not zero-weighted. -/
theorem C5_idf_table (idx : List (String × List (ℕ × ℕ))) (n_docs : ℕ)
    (min_df : ℤ) (mr : ℚ) (_hn : 0 < n_docs) (hnd : (idx.map Prod.fst).Nodup)
    (t : String) (v : ℝ) :
    alookup (compute_idf (fun n df => Real.logb 2 ((n : ℝ) / (1 + (df : ℝ))))
        idx n_docs min_df mr) t = some v ↔
      ∃ l, alookup idx t = some l ∧ min_df ≤ (l.length : ℤ) ∧
        (l.length : ℚ) / (n_docs : ℚ) ≤ mr ∧
        v = Real.logb 2 ((n_docs : ℝ) / (1 + (l.length : ℝ))) := by
  rw [compute_idf_lookup _ idx hnd]
  cases hx : alookup idx t with
  | none => simp
  | some l =>
      by_cases hc : ((l.length : ℚ) / (n_docs : ℚ) ≤ mr ∧ min_df ≤ (l.length : ℤ))
      · simp [hc, hc.1, hc.2, eq_comm]
      · simp only [Option.some_bind, if_neg hc]
        exact iff_of_false (by simp) fun ⟨l', hl', h1, h2, _⟩ => by
          injection hl' with h
          subst h
          exact hc ⟨h2, h1⟩

/-- Witness for C5 at a concrete index: one term of document frequency 1
in a corpus of 2 documents, thresholds `min_df = 1`, `max_df_ratio = 1`. -/
theorem C5_idf_table_witness :
    alookup (compute_idf (fun n df => Real.logb 2 ((n : ℝ) / (1 + (df : ℝ))))
        [("a", [(0, 1)])] 2 1 1) "a" =
          some (Real.logb 2 ((2 : ℝ) / (1 + (1 : ℝ)))) ↔
      ∃ l, alookup [("a", [(0, 1)])] "a" = some l ∧ (1 : ℤ) ≤ (l.length : ℤ) ∧
        (l.length : ℚ) / (2 : ℚ) ≤ 1 ∧
        Real.logb 2 ((2 : ℝ) / (1 + (1 : ℝ))) =
          Real.logb 2 ((2 : ℝ) / (1 + (l.length : ℝ))) :=
  C5_idf_table [("a", [(0, 1)])] 2 1 1 (by decide) (by decide) "a" _

/-- C3, counterexample: `compute_idf` never rejects its thresholds.  With
`min_df = -1 ≤ 0` and `max_df_ratio = 2` outside `(0, 1]` it still
produces a (nonempty) IDF table, so the misconfiguration is not
"rejected with a descriptive error" and an IDF table *is* produced. -/
theorem C3_cex :
    (-1 : ℤ) ≤ 0 ∧ ¬((0 : ℚ) < 2 ∧ (2 : ℚ) ≤ 1) ∧
      compute_idf (fun _ _ => (0 : ℚ)) [("a", [(0, 1)])] 2 (-1) 2 = [("a", 0)] := by
  refine ⟨by norm_num, by norm_num, ?_⟩
  norm_num [compute_idf, List.filterMap_cons]

/-- C3, amended: `compute_idf` performs no validation of `min_df` or
`max_df_ratio`; a misconfigured threshold pair is applied as an ordinary
filter and an IDF table is still produced.  In particular with
`min_df ≤ 0` every index term passing the ratio bound is in the table. -/
theorem C3_amended {α : Type} (w : ℕ → ℕ → α)
    (idx : List (String × List (ℕ × ℕ))) (n_docs : ℕ) (min_df : ℤ) (mr : ℚ)
    (hmd : min_df ≤ 0) (hnd : (idx.map Prod.fst).Nodup) (t : String)
    (l : List (ℕ × ℕ)) (hx : alookup idx t = some l)
    (hr : (l.length : ℚ) / (n_docs : ℚ) ≤ mr) :
    alookup (compute_idf w idx n_docs min_df mr) t = some (w n_docs l.length) := by
  rw [compute_idf_lookup _ idx hnd, hx]
  simp only [Option.some_bind]
  rw [if_pos ⟨hr, le_trans hmd (Int.ofNat_nonneg l.length)⟩]

/-- Witness for C3's amended claim: `min_df = -1`, `max_df_ratio = 2`. -/
theorem C3_amended_witness :
    alookup (compute_idf (fun _ _ => (0 : ℚ)) [("a", [(0, 1)])] 2 (-1) 2) "a" =
      some 0 :=
  C3_amended (fun _ _ => (0 : ℚ)) [("a", [(0, 1)])] 2 (-1) 2 (by decide)
    (by decide) "a" [(0, 1)] (by decide) (by norm_num)

/-! ## Stable-sort lemmas (Python `list.sort` / `sorted` are stable) -/

theorem filter_orderedInsert_key {β : Type} (x : ℕ × β) (l : List (ℕ × β)) (d : ℕ) :
    (List.orderedInsert (fun a b => a.1 ≤ b.1) x l).filter (fun p => p.1 = d) =
      if x.1 = d then x :: l.filter (fun p => p.1 = d)
      else l.filter (fun p => p.1 = d) := by
  induction l with
  | nil => by_cases h : x.1 = d <;> simp [List.orderedInsert, List.filter, h]
  | cons y l ih =>
      by_cases hxy : x.1 ≤ y.1
      · rw [List.orderedInsert, if_pos hxy]
        by_cases h : x.1 = d <;> by_cases hyd : y.1 = d <;>
          simp [List.filter_cons, h, hyd]
      · rw [List.orderedInsert, if_neg hxy]
        have hy : y.1 < x.1 := Nat.lt_of_not_le hxy
        simp only [List.filter_cons]
        by_cases h : x.1 = d
        · have hyd : ¬(y.1 = d) := by omega
          simp [h, hyd, ih]
        · by_cases hyd : y.1 = d <;> simp [h, hyd, ih]

theorem filter_insertionSort_key {β : Type} (l : List (ℕ × β)) (d : ℕ) :
    (l.insertionSort (fun a b => a.1 ≤ b.1)).filter (fun p => p.1 = d) =
      l.filter (fun p => p.1 = d) := by
  induction l with
  | nil => simp
  | cons x l ih =>
      rw [List.insertionSort, filter_orderedInsert_key]
      by_cases h : x.1 = d <;> simp [List.filter, h, ih]

/-- C2, counterexample: with 11 candidate messages the returned list has
length 11, not at most `K = 10` — the `[:10]` truncation in the source is
applied only to the printed line, never to the returned value. -/
theorem C2_cex :
    ¬((edit_distance_search "a".toList
          (["b", "c", "d", "e", "f", "g", "h", "i", "j", "k", "l"].map
            String.toList)
          insertion_cost deletion_cost substitution_cost).length ≤ 10) := by
  decide

/-- C2, amended: for every query string and list of candidate messages,
`edit_distance_search` returns a `(distance, message)` pair for *every*
candidate (no truncation to K = 10 of the returned value), sorted
ascending by distance with ties between equal distances kept in stable
input order (for each distance value `d`, the pairs with distance `d`
appear exactly as in the unsorted scored list). -/
theorem C2_search_sorted (query : List Char) (msgs : List (List Char)) :
    (edit_distance_search query msgs insertion_cost deletion_cost
        substitution_cost).length = msgs.length ∧
    List.Sorted (fun a b => a.1 ≤ b.1)
      (edit_distance_search query msgs insertion_cost deletion_cost
        substitution_cost) ∧
    ∀ d : ℕ,
      (edit_distance_search query msgs insertion_cost deletion_cost
          substitution_cost).filter (fun p => p.1 = d) =
        (msgs.map fun m =>
          (edit_distance query m insertion_cost deletion_cost substitution_cost,
            m)).filter (fun p => p.1 = d) := by
  haveI : IsTotal (ℕ × List Char) (fun a b => a.1 ≤ b.1) :=
    ⟨fun a b => Nat.le_total a.1 b.1⟩
  haveI : IsTrans (ℕ × List Char) (fun a b => a.1 ≤ b.1) :=
    ⟨fun _ _ _ h1 h2 => Nat.le_trans h1 h2⟩
  refine ⟨?_, ?_, ?_⟩
  · rw [edit_distance_search, List.length_insertionSort, List.length_map]
  · exact List.sorted_insertionSort _ _
  · intro d
    rw [edit_distance_search, filter_insertionSort_key]

/-! ## Edit-matrix lemmas -/

theorem chartF_stable (q m : List Char) (insC delC : List Char → ℕ → ℕ)
    (subC : List Char → List Char → ℕ → ℕ → ℕ) :
    ∀ f f' i j, i + j ≤ f → i + j ≤ f' →
      chartF q m insC delC subC f i j = chartF q m insC delC subC f' i j := by
  intro f
  induction f with
  | zero =>
      intro f' i j h1 _
      have hi : i = 0 := by omega
      have hj : j = 0 := by omega
      subst hi; subst hj
      cases f' <;> rfl
  | succ fc ih =>
      intro f' i j h1 h2
      cases i with
      | zero =>
          cases j with
          | zero => cases f' <;> rfl
          | succ j' =>
              obtain ⟨fc', rfl⟩ : ∃ fc', f' = fc' + 1 := ⟨f' - 1, by omega⟩
              simp only [chartF]
              rw [ih fc' 0 j' (by omega) (by omega)]
      | succ i' =>
          cases j with
          | zero =>
              obtain ⟨fc', rfl⟩ : ∃ fc', f' = fc' + 1 := ⟨f' - 1, by omega⟩
              simp only [chartF]
              rw [ih fc' i' 0 (by omega) (by omega)]
          | succ j' =>
              obtain ⟨fc', rfl⟩ : ∃ fc', f' = fc' + 1 := ⟨f' - 1, by omega⟩
              simp only [chartF]
              rw [ih fc' i' (j' + 1) (by omega) (by omega),
                ih fc' (i' + 1) j' (by omega) (by omega),
                ih fc' i' j' (by omega) (by omega)]

theorem edit_matrix_zero_zero (q m : List Char) (insC delC : List Char → ℕ → ℕ)
    (subC : List Char → List Char → ℕ → ℕ → ℕ) :
    edit_matrix q m insC delC subC 0 0 = 0 := rfl

theorem edit_matrix_succ_zero (q m : List Char) (insC delC : List Char → ℕ → ℕ)
    (subC : List Char → List Char → ℕ → ℕ → ℕ) (i : ℕ) :
    edit_matrix q m insC delC subC (i + 1) 0 =
      edit_matrix q m insC delC subC i 0 + delC q (i + 1) := rfl

theorem edit_matrix_zero_succ (q m : List Char) (insC delC : List Char → ℕ → ℕ)
    (subC : List Char → List Char → ℕ → ℕ → ℕ) (j : ℕ) :
    edit_matrix q m insC delC subC 0 (j + 1) =
      edit_matrix q m insC delC subC 0 j + insC m (j + 1) := rfl

theorem edit_matrix_succ_succ (q m : List Char) (insC delC : List Char → ℕ → ℕ)
    (subC : List Char → List Char → ℕ → ℕ → ℕ) (i j : ℕ) :
    edit_matrix q m insC delC subC (i + 1) (j + 1) =
      min (edit_matrix q m insC delC subC i (j + 1) + delC q (i + 1))
        (min (edit_matrix q m insC delC subC (i + 1) j + insC m (j + 1))
          (edit_matrix q m insC delC subC i j + subC q m (i + 1) (j + 1))) := by
  show chartF q m insC delC subC (((i + 1) + j) + 1) (i + 1) (j + 1) = _
  simp only [chartF]
  rw [chartF_stable q m insC delC subC ((i + 1) + j) (i + (j + 1)) i (j + 1)
      (by omega) (by omega),
    chartF_stable q m insC delC subC ((i + 1) + j) (i + j) i j (by omega) (by omega)]
  rfl

/-! ## lev lemmas -/

theorem lev_nil_right (xs : List Char) : lev xs [] = xs.length := by
  cases xs <;> simp [lev]

theorem lev_nil_left (ys : List Char) : lev [] ys = ys.length := by
  simp [lev]

theorem lev_cons_cons (x y : Char) (xs ys : List Char) :
    lev (x :: xs) (y :: ys) =
      min (lev xs (y :: ys) + 1)
        (min (lev (x :: xs) ys + 1) (lev xs ys + if x = y then 0 else 1)) := by
  simp [lev]

theorem lev_snoc_aux :
    ∀ (n : ℕ) (xs ys : List Char) (a b : Char), xs.length + ys.length ≤ n →
      lev (xs ++ [a]) (ys ++ [b]) =
        min (lev xs (ys ++ [b]) + 1)
          (min (lev (xs ++ [a]) ys + 1)
            (lev xs ys + if a = b then 0 else 1)) := by
  intro n
  induction n with
  | zero =>
      intro xs ys a b h
      have hx : xs = [] := List.length_eq_zero.1 (by omega)
      have hy : ys = [] := List.length_eq_zero.1 (by omega)
      subst hx; subst hy
      simp [lev]
  | succ nc ih =>
      intro xs ys a b h
      cases xs with
      | nil =>
          cases ys with
          | nil => simp [lev]
          | cons y ys' =>
              have ih1 := ih [] ys' a b
                (by simp only [List.length_cons, List.length_nil] at h ⊢; omega)
              simp only [List.nil_append, List.cons_append] at ih1 ⊢
              simp only [lev_cons_cons, lev_nil_left, List.length_append,
                List.length_cons, List.length_nil] at ih1 ⊢
              rw [ih1]
              split_ifs <;> omega
      | cons x xs' =>
          cases ys with
          | nil =>
              have ih1 := ih xs' [] a b
                (by simp only [List.length_cons, List.length_nil] at h ⊢; omega)
              simp only [List.nil_append, List.cons_append] at ih1 ⊢
              simp only [lev_cons_cons, lev_nil_left, lev_nil_right,
                List.length_append, List.length_cons, List.length_nil] at ih1 ⊢
              rw [ih1]
              split_ifs <;> omega
          | cons y ys' =>
              have ih1 := ih xs' (y :: ys') a b
                (by simp only [List.length_cons] at h ⊢; omega)
              have ih2 := ih (x :: xs') ys' a b
                (by simp only [List.length_cons] at h ⊢; omega)
              have ih3 := ih xs' ys' a b
                (by simp only [List.length_cons] at h ⊢; omega)
              simp only [List.cons_append] at ih1 ih2 ⊢
              simp only [lev_cons_cons] at ih1 ih2 ih3 ⊢
              rw [ih1, ih2, ih3]
              simp only [← min_add_add_right]
              split_ifs <;> apply le_antisymm <;>
                simp only [le_min_iff, min_le_iff] <;> omega

theorem lev_snoc (xs ys : List Char) (a b : Char) :
    lev (xs ++ [a]) (ys ++ [b]) =
      min (lev xs (ys ++ [b]) + 1)
        (min (lev (xs ++ [a]) ys + 1)
          (lev xs ys + if a = b then 0 else 1)) :=
  lev_snoc_aux (xs.length + ys.length) xs ys a b le_rfl

theorem lev_reverse_aux :
    ∀ (n : ℕ) (xs ys : List Char), xs.length + ys.length ≤ n →
      lev xs.reverse ys.reverse = lev xs ys := by
  intro n
  induction n with
  | zero =>
      intro xs ys h
      have hx : xs = [] := List.length_eq_zero.1 (by omega)
      have hy : ys = [] := List.length_eq_zero.1 (by omega)
      subst hx; subst hy
      rfl
  | succ nc ih =>
      intro xs ys h
      cases xs with
      | nil => simp [lev_nil_left]
      | cons x xs' =>
          cases ys with
          | nil => simp [lev_nil_right]
          | cons y ys' =>
              simp only [List.reverse_cons]
              rw [lev_snoc]
              rw [show ys'.reverse ++ [y] = (y :: ys').reverse from
                  (List.reverse_cons y ys').symm,
                show xs'.reverse ++ [x] = (x :: xs').reverse from
                  (List.reverse_cons x xs').symm]
              rw [ih xs' (y :: ys')
                  (by simp only [List.length_cons] at h ⊢; omega),
                ih (x :: xs') ys'
                  (by simp only [List.length_cons] at h ⊢; omega),
                ih xs' ys' (by simp only [List.length_cons] at h ⊢; omega)]
              rw [lev_cons_cons]

theorem lev_reverse (xs ys : List Char) :
    lev xs.reverse ys.reverse = lev xs ys :=
  lev_reverse_aux (xs.length + ys.length) xs ys le_rfl

theorem take_succ_reverse (l : List Char) (i : ℕ) (h : i < l.length) :
    (l.take (i + 1)).reverse = l.get ⟨i, h⟩ :: (l.take i).reverse := by
  rw [List.take_succ, List.getElem?_eq_getElem h]
  simp [List.get_eq_getElem]

theorem edit_matrix_eq_lev (q m : List Char) :
    ∀ (n i j : ℕ), i + j ≤ n → i ≤ q.length → j ≤ m.length →
      edit_matrix q m insertion_cost deletion_cost substitution_cost i j =
        lev ((q.take i).reverse) ((m.take j).reverse) := by
  intro n
  induction n with
  | zero =>
      intro i j h _ _
      have hi : i = 0 := by omega
      have hj : j = 0 := by omega
      subst hi; subst hj
      simp [edit_matrix_zero_zero, lev_nil_left]
  | succ nc ih =>
      intro i j h hi hj
      cases i with
      | zero =>
          cases j with
          | zero => simp [edit_matrix_zero_zero, lev_nil_left]
          | succ j' =>
              rw [edit_matrix_zero_succ, ih 0 j' (by omega) (by omega) (by omega)]
              simp only [List.take_zero, List.reverse_nil, lev_nil_left,
                List.length_reverse, List.length_take, insertion_cost]
              omega
      | succ i' =>
          cases j with
          | zero =>
              rw [edit_matrix_succ_zero, ih i' 0 (by omega) (by omega) (by omega)]
              simp only [List.take_zero, List.reverse_nil, lev_nil_right,
                List.length_reverse, List.length_take, deletion_cost]
              omega
          | succ j' =>
              have hi' : i' < q.length := by omega
              have hj' : j' < m.length := by omega
              rw [edit_matrix_succ_succ,
                ih i' (j' + 1) (by omega) (by omega) (by omega),
                ih (i' + 1) j' (by omega) (by omega) (by omega),
                ih i' j' (by omega) (by omega) (by omega),
                take_succ_reverse q i' hi', take_succ_reverse m j' hj',
                lev_cons_cons]
              have hsub : substitution_cost q m (i' + 1) (j' + 1) =
                  if q.get ⟨i', hi'⟩ = m.get ⟨j', hj'⟩ then 0 else 1 := by
                simp [substitution_cost, Nat.add_sub_cancel,
                  List.getD_eq_getElem?_getD, List.getElem?_eq_getElem hi',
                  List.getElem?_eq_getElem hj', List.get_eq_getElem]
              rw [hsub]
              simp [deletion_cost, insertion_cost]

/-- C9: with the default unit cost functions, `edit_distance` computes the
standard Levenshtein distance (`lev`) between the two case-folded
strings, and in particular the three values of the spec's examples. -/
theorem C9_edit_distance_is_levenshtein :
    (∀ q m : List Char,
        edit_distance q m insertion_cost deletion_cost substitution_cost =
          lev (q.map Char.toLower) (m.map Char.toLower)) ∧
    edit_distance "kitten".toList "sitting".toList insertion_cost deletion_cost
        substitution_cost = 3 ∧
    edit_distance "".toList "abc".toList insertion_cost deletion_cost
        substitution_cost = 3 ∧
    edit_distance "abc".toList "abc".toList insertion_cost deletion_cost
        substitution_cost = 0 := by
  refine ⟨fun q m => ?_, by decide, by decide, by decide⟩
  rw [edit_distance,
    edit_matrix_eq_lev (q.map Char.toLower) (m.map Char.toLower)
      ((q.map Char.toLower).length + (m.map Char.toLower).length)
      (q.map Char.toLower).length (m.map Char.toLower).length le_rfl le_rfl
      le_rfl,
    List.take_length, List.take_length, lev_reverse]

/-- C1: the Top-K Ranker has no zero-norm guard.  Concrete run (exact
arithmetic, `sqrt = id`): one query term `"t"` with idf 1, one document
(index 0) carrying `"t"` with tf 1 whose precomputed norm is 0.  The
document is present in the accumulated score map (score 1), the ranker
divides that score by the zero norm (`1 / 0`; `nan` in the source's IEEE
arithmetic, `0` in the exact model), and the document is *included* in
the returned Score Result instead of being excluded. -/
theorem C1_unguarded_zero_norm :
    (accumulate_dot_scores ((queryState ["t"] [("t", (1 : ℚ))]).2)
        [("t", [(0, 1)])] [("t", (1 : ℚ))] = some [(0, 1)]) ∧
    compute_cossim_for_webnovel (id : ℚ → ℚ) ["t"] [("t", [(0, 1)])]
        [("t", (1 : ℚ))] [(0 : ℚ)] = some [((1 : ℚ) / 0, 0)] ∧
    (0 : ℕ) ∈ ([((1 : ℚ) / 0, 0)]).map Prod.snd := by
  refine ⟨?_, ?_, by simp⟩ <;>
    norm_num [compute_cossim_for_webnovel, queryState, queryStep,
      initial_word_counts, accumulate_dot_scores, termStep, scoreStep,
      addScore, alookup, List.dedup, List.insertionSort, List.orderedInsert,
      List.mapM, List.mapM.loop]

/-! ## Query-vectorizer lemmas (C7) -/

theorem aerase_sublist {κ β : Type} [DecidableEq κ] (l : List (κ × β)) (k : κ) :
    List.Sublist (aerase l k) l := by
  induction l with
  | nil => simp [aerase]
  | cons p l ih =>
      obtain ⟨k', v'⟩ := p
      by_cases h : k = k'
      · rw [aerase, if_pos h]
        exact List.sublist_cons_self _ _
      · rw [aerase, if_neg h]
        exact ih.cons₂ _

theorem keys_initial_word_counts {α : Type} [LinearOrderedField α]
    (toks : List String) :
    ((initial_word_counts (α := α) toks).map Prod.fst) = toks.dedup := by
  rw [initial_word_counts, List.map_map]
  have h : (Prod.fst ∘ fun t : String => (t, (1 : α))) = id := rfl
  rw [h, List.map_id]

theorem queryLoop_char {α : Type} [LinearOrderedField α]
    (idf : List (String × α)) :
    ∀ (u : List String) (n₀ : α) (wc₀ : List (String × α)),
      u.Nodup → (wc₀.map Prod.fst).Nodup →
      (∀ t ∈ u, alookup wc₀ t = some 1) →
      (u.foldl (queryStep idf) (n₀, wc₀)).1 =
          n₀ + ((u.filter fun t => (alookup idf t).isSome).map
            (fun t => ((1 : α) * idfD idf t) ^ 2)).sum ∧
      ∀ t, alookup (u.foldl (queryStep idf) (n₀, wc₀)).2 t =
          if t ∈ u ∧ alookup idf t = none then none else alookup wc₀ t := by
  intro u
  induction u with
  | nil =>
      intro n₀ wc₀ _ _ _
      exact ⟨by simp, fun t => by simp⟩
  | cons t u' ih =>
      intro n₀ wc₀ hu hwknd hwc
      have ht1 : alookup wc₀ t = some 1 := hwc t (List.mem_cons_self t u')
      have hu' : u'.Nodup := (List.nodup_cons.1 hu).2
      have htu' : t ∉ u' := (List.nodup_cons.1 hu).1
      rw [List.foldl_cons]
      cases hidf : alookup idf t with
      | some iv =>
          have hstep : queryStep idf (n₀, wc₀) t = (n₀ + ((1 : α) * iv) ^ 2, wc₀) := by
            simp [queryStep, hidf, ht1]
          rw [hstep]
          obtain ⟨h1, h2⟩ := ih (n₀ + ((1 : α) * iv) ^ 2) wc₀ hu' hwknd
            (fun t' ht' => hwc t' (List.mem_cons_of_mem _ ht'))
          refine ⟨?_, ?_⟩
          · rw [h1, List.filter_cons]
            have hiv : idfD idf t = iv := by simp [idfD, hidf]
            simp only [hidf, Option.isSome_some, if_true, List.map_cons,
              List.sum_cons, hiv]
            ring
          · intro t'
            rw [h2 t']
            by_cases htt : t' = t
            · rw [htt]
              simp [htu', hidf]
            · simp [List.mem_cons, htt]
      | none =>
          have hstep : queryStep idf (n₀, wc₀) t = (n₀, aerase wc₀ t) := by
            simp [queryStep, hidf, ht1]
          rw [hstep]
          have hnd' : ((aerase wc₀ t).map Prod.fst).Nodup :=
            hwknd.sublist ((aerase_sublist wc₀ t).map Prod.fst)
          have hw' : ∀ t' ∈ u', alookup (aerase wc₀ t) t' = some 1 := by
            intro t' ht'
            rw [alookup_aerase_ne wc₀ t t' (fun hh => htu' (hh ▸ ht'))]
            exact hwc t' (List.mem_cons_of_mem _ ht')
          obtain ⟨h1, h2⟩ := ih n₀ (aerase wc₀ t) hu' hnd' hw'
          refine ⟨?_, ?_⟩
          · rw [h1, List.filter_cons]
            simp [hidf]
          · intro t'
            rw [h2 t']
            by_cases htt : t' = t
            · rw [htt]
              rw [if_neg (fun hh => htu' hh.1)]
              rw [alookup_aerase_self wc₀ t hwknd]
              simp [hidf]
            · rw [alookup_aerase_ne wc₀ t t' htt]
              simp [List.mem_cons, htt]

/-- C7: the Query Vectorizer maps each distinct in-vocabulary query token
to the count 1 (repeated occurrences collapse to presence), drops every
out-of-vocabulary token entirely, and the accumulated squared query norm
is `Σ (count * idf)²` over the distinct vocabulary terms of the query
(so the query's own norm — `math.sqrt(norm)` in the source — is its
square root). -/
theorem C7_query_vector (toks : List String) (idf : List (String × ℝ)) :
    (∀ t, alookup (queryState toks idf).2 t =
        if t ∈ toks ∧ (alookup idf t).isSome then some 1 else none) ∧
    (queryState toks idf).1 =
      ((toks.dedup.filter fun t => (alookup idf t).isSome).map
        (fun t => ((1 : ℝ) * idfD idf t) ^ 2)).sum ∧
    Real.sqrt (queryState toks idf).1 =
      Real.sqrt (((toks.dedup.filter fun t => (alookup idf t).isSome).map
        (fun t => ((1 : ℝ) * idfD idf t) ^ 2)).sum) := by
  obtain ⟨h1, h2⟩ := queryLoop_char idf toks.dedup 0 (initial_word_counts toks)
    toks.nodup_dedup (by rw [keys_initial_word_counts]; exact toks.nodup_dedup)
    (fun t ht => by rw [initial_word_counts, alookup_map_const, if_pos ht])
  refine ⟨?_, ?_, ?_⟩
  · intro t
    rw [queryState, h2 t, initial_word_counts, alookup_map_const]
    by_cases hmem : t ∈ toks
    · have hd : t ∈ toks.dedup := List.mem_dedup.2 hmem
      cases hidf : alookup idf t with
      | none => simp [hd, hmem, hidf]
      | some iv => simp [hd, hmem, hidf]
    · have hd : t ∉ toks.dedup := fun hh => hmem (List.mem_dedup.1 hh)
      simp [hd, hmem]
  · rw [queryState, h1, zero_add]
  · rw [queryState, h1, zero_add]

/-! ## Norm-calculator lemmas (C8) -/

theorem accumTermNorms_char {α : Type} [LinearOrderedField α] (score : α) :
    ∀ (l : List (ℕ × ℕ)) (ns : List α),
      (∀ p ∈ l, p.1 < ns.length) → (l.map Prod.fst).Nodup →
      ∃ ns', accumTermNorms score ns l = some ns' ∧ ns'.length = ns.length ∧
        ∀ d (hd : d < ns.length) (hd' : d < ns'.length),
          ns'.get ⟨d, hd'⟩ = ns.get ⟨d, hd⟩ +
            ((((alookup l d).getD 0 : ℕ) : α) * score) ^ 2 := by
  intro l
  induction l with
  | nil =>
      intro ns _ _
      refine ⟨ns, rfl, rfl, ?_⟩
      intro d hd hd'
      simp [alookup]
  | cons p rest ih =>
      intro ns hb hnd
      obtain ⟨d₀, tf₀⟩ := p
      have hd₀ : d₀ < ns.length := hb (d₀, tf₀) (List.mem_cons_self _ _)
      have hrest : ∀ q ∈ rest, q.1 < (ns.set d₀ (ns.get ⟨d₀, hd₀⟩ +
          ((tf₀ : α) * score) ^ 2)).length := by
        intro q hq
        rw [List.length_set]
        exact hb q (List.mem_cons_of_mem _ hq)
      simp only [List.map_cons, List.nodup_cons] at hnd
      obtain ⟨ns₂, hrun, hlen, hget⟩ :=
        ih (ns.set d₀ (ns.get ⟨d₀, hd₀⟩ + ((tf₀ : α) * score) ^ 2)) hrest hnd.2
      refine ⟨ns₂, ?_, by rw [hlen, List.length_set], ?_⟩
      · rw [accumTermNorms, List.foldlM_cons, dif_pos hd₀]
        simpa [accumTermNorms] using hrun
      · intro d hd hd'
        have hd1 : d < (ns.set d₀ (ns.get ⟨d₀, hd₀⟩ +
            ((tf₀ : α) * score) ^ 2)).length := by
          rw [List.length_set]; exact hd
        rw [hget d hd1 hd']
        by_cases hdd : d = d₀
        · subst hdd
          have h0 : alookup rest d = none := by
            rw [alookup_eq_none_iff]; exact hnd.1
          simp only [List.get_eq_getElem] at *
          simp [List.getElem_set_self, alookup, h0]
        · simp only [List.get_eq_getElem] at *
          simp [List.getElem_set_ne (fun hh => hdd hh.symm), alookup, hdd]

theorem docNormsLoop_char {α : Type} [LinearOrderedField α]
    (index : List (String × List (ℕ × ℕ))) :
    ∀ (E : List (String × α)) (ns : List α),
      (∀ t ∈ E.map Prod.fst, ∃ l, alookup index t = some l) →
      (∀ t l, alookup index t = some l →
        (∀ q ∈ l, q.1 < ns.length) ∧ (l.map Prod.fst).Nodup) →
      ∃ ns', E.foldlM (normStep index) ns = some ns' ∧ ns'.length = ns.length ∧
        ∀ d (hd : d < ns.length) (hd' : d < ns'.length),
          ns'.get ⟨d, hd'⟩ = ns.get ⟨d, hd⟩ +
            (E.map fun p => ((tfOf index p.1 d : α) * p.2) ^ 2).sum := by
  intro E
  induction E with
  | nil =>
      intro ns _ _
      exact ⟨ns, rfl, rfl, fun d hd hd' => by simp⟩
  | cons p rest ih =>
      intro ns hcov hwf
      obtain ⟨l₀, hl₀⟩ := hcov p.1 (by simp)
      obtain ⟨ns₁, hrun₁, hlen₁, hget₁⟩ :=
        accumTermNorms_char p.2 l₀ ns (hwf p.1 l₀ hl₀).1 (hwf p.1 l₀ hl₀).2
      have hcov' : ∀ t ∈ rest.map Prod.fst, ∃ l, alookup index t = some l :=
        fun t ht => hcov t (by simp [ht])
      have hwf' : ∀ t l, alookup index t = some l →
          (∀ q ∈ l, q.1 < ns₁.length) ∧ (l.map Prod.fst).Nodup := by
        intro t l hl
        rw [hlen₁]
        exact hwf t l hl
      obtain ⟨ns₂, hrun₂, hlen₂, hget₂⟩ := ih ns₁ hcov' hwf'
      refine ⟨ns₂, ?_, by rw [hlen₂, hlen₁], ?_⟩
      · rw [List.foldlM_cons]
        have hstep : normStep index ns p = some ns₁ := by
          rw [normStep]
          simp [hl₀, hrun₁]
        simp [hstep, hrun₂]
      · intro d hd hd'
        have hd1 : d < ns₁.length := by rw [hlen₁]; exact hd
        rw [hget₂ d hd1 hd', hget₁ d hd hd1]
        have htf : tfOf index p.1 d = (alookup l₀ d).getD 0 := by
          rw [tfOf, postingsOf, hl₀]
          rfl
        simp [htf]
        ring

/-- C8: for an inverted index covering the IDF table's terms (with
postings indices inside the corpus and no duplicated document in a
postings list), `compute_doc_norms` returns a vector of length `n_docs`
whose entry for each document index equals the square root of
`Σ (tf * idf)²` over the terms present in the IDF table (terms absent
from the table contribute nothing), and every entry is non-negative. -/
theorem C8_doc_norms (index : List (String × List (ℕ × ℕ)))
    (idf : List (String × ℝ)) (n_docs : ℕ)
    (hcov : ∀ t ∈ idf.map Prod.fst, ∃ l, alookup index t = some l)
    (hb : ∀ t l, alookup index t = some l → ∀ q ∈ l, q.1 < n_docs)
    (hnd : ∀ t l, alookup index t = some l → (l.map Prod.fst).Nodup) :
    ∃ ns, compute_doc_norms Real.sqrt index idf n_docs = some ns ∧
      ns.length = n_docs ∧
      ∀ d (hd : d < n_docs) (hd' : d < ns.length),
        ns.get ⟨d, hd'⟩ =
          Real.sqrt ((idf.map fun p => ((tfOf index p.1 d : ℝ) * p.2) ^ 2).sum) ∧
        0 ≤ ns.get ⟨d, hd'⟩ := by
  obtain ⟨ns₁, hrun, hlen, hget⟩ := docNormsLoop_char index idf
    (List.replicate n_docs (0 : ℝ)) hcov
    (fun t l hl => ⟨fun q hq => by
        rw [List.length_replicate]; exact hb t l hl q hq, hnd t l hl⟩)
  refine ⟨ns₁.map Real.sqrt, ?_, by simp [hlen], ?_⟩
  · rw [compute_doc_norms, hrun]
    rfl
  · intro d hd hd'
    have hd1 : d < ns₁.length := by
      simpa using hd'
    have hd0 : d < (List.replicate n_docs (0 : ℝ)).length := by
      simpa using hd
    constructor
    · simp only [List.get_eq_getElem, List.getElem_map]
      have := hget d hd0 hd1
      simp only [List.get_eq_getElem, List.getElem_replicate] at this
      rw [this, zero_add]
    · simp only [List.get_eq_getElem, List.getElem_map]
      exact Real.sqrt_nonneg _

/-- Witness for C8: one term, one document with tf 2 and idf weight 1. -/
theorem C8_doc_norms_witness :
    ∃ ns, compute_doc_norms Real.sqrt [("a", [(0, 2)])] [("a", (1 : ℝ))] 1 =
        some ns ∧
      ns.length = 1 ∧
      ∀ d (hd : d < 1) (hd' : d < ns.length),
        ns.get ⟨d, hd'⟩ =
          Real.sqrt (([("a", (1 : ℝ))].map fun p =>
            ((tfOf [("a", [(0, 2)])] p.1 d : ℝ) * p.2) ^ 2).sum) ∧
        0 ≤ ns.get ⟨d, hd'⟩ := by
  refine C8_doc_norms [("a", [(0, 2)])] [("a", (1 : ℝ))] 1 ?_ ?_ ?_
  · intro t ht
    simp only [List.map_cons, List.map_nil, List.mem_singleton] at ht
    subst ht
    exact ⟨[(0, 2)], by simp [alookup]⟩
  · intro t l hl q hq
    by_cases h : t = "a"
    · subst h
      simp only [alookup, if_pos rfl] at hl
      injection hl with hl
      subst hl
      simp only [List.mem_singleton] at hq
      subst hq
      decide
    · simp [alookup, h] at hl
  · intro t l hl
    by_cases h : t = "a"
    · subst h
      simp only [alookup, if_pos rfl] at hl
      injection hl with hl
      subst hl
      decide
    · simp [alookup, h] at hl

/-! ## Dot-product accumulator lemmas (C4) -/

theorem alookup_addScore {α : Type} [LinearOrderedField α]
    (sc : List (ℕ × α)) (doc : ℕ) (v : α) (a : ℕ) :
    alookup (addScore sc doc v) a =
      if a = doc then
        (match alookup sc doc with
          | none => some v
          | some old => some (old + v))
      else alookup sc a := by
  rw [addScore]
  cases hsc : alookup sc doc with
  | none =>
      rw [alookup_append]
      by_cases ha : a = doc
      · subst ha
        rw [hsc]
        simp [alookup]
      · cases hsa : alookup sc a <;> simp [alookup, ha, hsa]
  | some old =>
      rw [alookup_aupdate]
      by_cases ha : a = doc <;> simp [ha, hsc]

theorem scoreStep_foldlM {α : Type} [LinearOrderedField α]
    (idf : List (String × α)) (t : String) (qc iv : α)
    (hiv : alookup idf t = some iv) :
    ∀ (l : List (ℕ × ℕ)) (sc : List (ℕ × α)), (l.map Prod.fst).Nodup →
      ∃ sc', l.foldlM (scoreStep idf t qc) sc = some sc' ∧
        ∀ a, alookup sc' a =
          match alookup sc a, alookup l a with
          | none, none => none
          | some s, none => some s
          | none, some tf => some ((tf : α) * iv * qc * iv)
          | some s, some tf => some (s + (tf : α) * iv * qc * iv) := by
  intro l
  induction l with
  | nil =>
      intro sc _
      refine ⟨sc, rfl, fun a => ?_⟩
      cases alookup sc a <;> simp [alookup]
  | cons p rest ih =>
      intro sc hnd
      obtain ⟨d₀, tf₀⟩ := p
      simp only [List.map_cons, List.nodup_cons] at hnd
      obtain ⟨sc₂, hrun, hchar⟩ :=
        ih (addScore sc d₀ ((tf₀ : α) * iv * qc * iv)) hnd.2
      refine ⟨sc₂, ?_, ?_⟩
      · rw [List.foldlM_cons]
        have hstep : scoreStep idf t qc sc (d₀, tf₀) =
            some (addScore sc d₀ ((tf₀ : α) * iv * qc * iv)) := by
          rw [scoreStep]
          simp [hiv]
        simp [hstep, hrun]
      · intro a
        rw [hchar a, alookup_addScore]
        by_cases ha : a = d₀
        · subst ha
          have h0 : alookup rest a = none := by
            rw [alookup_eq_none_iff]; exact hnd.1
          rw [if_pos rfl, h0]
          cases alookup sc a <;> simp [alookup]
        · rw [if_neg ha]
          have hc : alookup ((d₀, tf₀) :: rest) a = alookup rest a := by
            simp [alookup, ha]
          rw [hc]

theorem accumulate_loop_char {α : Type} [LinearOrderedField α]
    (index : List (String × List (ℕ × ℕ))) (idf : List (String × α)) :
    ∀ (q : List (String × α)) (sc : List (ℕ × α)),
      (∀ p ∈ q, ∃ l iv, alookup index p.1 = some l ∧ alookup idf p.1 = some iv ∧
        (l.map Prod.fst).Nodup) →
      ∃ sc', q.foldlM (termStep index idf) sc = some sc' ∧
        ∀ a, alookup sc' a =
          match alookup sc a with
          | some s => some (s + specScore q index idf a)
          | none =>
              if q.any (fun p => (alookup (postingsOf index p.1) a).isSome) then
                some (specScore q index idf a)
              else none := by
  intro q
  induction q with
  | nil =>
      intro sc _
      refine ⟨sc, rfl, fun a => ?_⟩
      cases alookup sc a <;> simp [specScore]
  | cons p rest ih =>
      intro sc hcov
      obtain ⟨l, iv, hl, hiv, hlnd⟩ := hcov p (List.mem_cons_self _ _)
      obtain ⟨sc₁, hrun1, hchar1⟩ := scoreStep_foldlM idf p.1 p.2 iv hiv l sc hlnd
      obtain ⟨sc₂, hrun2, hchar2⟩ :=
        ih sc₁ (fun p' hp' => hcov p' (List.mem_cons_of_mem _ hp'))
      have hpost : postingsOf index p.1 = l := by simp [postingsOf, hl]
      have hidfD : idfD idf p.1 = iv := by simp [idfD, hiv]
      have hspec : ∀ a, specScore (p :: rest) index idf a =
          (tfOf index p.1 a : α) * iv * p.2 * iv + specScore rest index idf a := by
        intro a
        simp [specScore, hidfD]
      refine ⟨sc₂, ?_, ?_⟩
      · rw [List.foldlM_cons]
        have hstep : termStep index idf sc p = some sc₁ := by
          rw [termStep]
          simp [hl, hrun1]
        simp [hstep, hrun2]
      · intro a
        rw [hchar2 a, hchar1 a, hspec a]
        have htf : (tfOf index p.1 a : ℕ) = (alookup l a).getD 0 := by
          rw [tfOf, hpost]
        cases hsc : alookup sc a with
        | none =>
            cases hla : alookup l a with
            | none =>
                have htf0 : ((tfOf index p.1 a : ℕ) : α) = 0 := by
                  rw [htf, hla]; simp
                have hiso : (alookup (postingsOf index p.1) a).isSome = false := by
                  rw [hpost, hla]; rfl
                rw [List.any_cons, hiso, Bool.false_or, htf0]
                by_cases hany :
                    rest.any (fun pp => (alookup (postingsOf index pp.1) a).isSome) <;>
                  simp [hany]
            | some tf =>
                have htfv : ((tfOf index p.1 a : ℕ) : α) = (tf : α) := by
                  rw [htf, hla]; simp
                have hiso : (alookup (postingsOf index p.1) a).isSome = true := by
                  rw [hpost, hla]; rfl
                rw [List.any_cons, hiso, Bool.true_or, htfv]
                simp
        | some s =>
            cases hla : alookup l a with
            | none =>
                have htf0 : ((tfOf index p.1 a : ℕ) : α) = 0 := by
                  rw [htf, hla]; simp
                rw [htf0]
                simp
            | some tf =>
                have htfv : ((tfOf index p.1 a : ℕ) : α) = (tf : α) := by
                  rw [htf, hla]; simp
                rw [htfv]
                simp [add_assoc]

/-- C4: for a query vector whose terms all belong to the IDF vocabulary
(and, as the pipeline guarantees, to the index, with duplicate-free
postings), `accumulate_dot_scores` returns a map whose key set is exactly
the set of documents sharing at least one vocabulary term with the query
(zero-overlap documents are absent, not present with score 0), and each
document's value is the sum over the query vector of
`tf * idf[term] * query_count[term] * idf[term]`. -/
theorem C4_accumulate (q : List (String × ℝ))
    (index : List (String × List (ℕ × ℕ))) (idf : List (String × ℝ))
    (hvocab : ∀ t ∈ q.map Prod.fst, (alookup idf t).isSome)
    (hidx : ∀ t ∈ q.map Prod.fst, (alookup index t).isSome)
    (hpnd : ∀ t l, alookup index t = some l → (l.map Prod.fst).Nodup) :
    ∃ m, accumulate_dot_scores q index idf = some m ∧
      (∀ d, d ∈ m.map Prod.fst ↔
        ∃ p ∈ q, (alookup (postingsOf index p.1) d).isSome) ∧
      ∀ d s, alookup m d = some s → s = specScore q index idf d := by
  have hcov : ∀ p ∈ q, ∃ l iv, alookup index p.1 = some l ∧
      alookup idf p.1 = some iv ∧ (l.map Prod.fst).Nodup := by
    intro p hp
    have h1 := hidx p.1 (List.mem_map_of_mem Prod.fst hp)
    have h2 := hvocab p.1 (List.mem_map_of_mem Prod.fst hp)
    obtain ⟨l, hl⟩ := Option.isSome_iff_exists.1 h1
    obtain ⟨iv, hiv⟩ := Option.isSome_iff_exists.1 h2
    exact ⟨l, iv, hl, hiv, hpnd p.1 l hl⟩
  obtain ⟨m, hrun, hchar⟩ := accumulate_loop_char index idf q [] hcov
  rw [accumulate_dot_scores] at *
  refine ⟨m, hrun, ?_, ?_⟩
  · intro d
    have hm := hchar d
    simp only [alookup] at hm
    constructor
    · intro hd
      by_contra hno
      have hany : (q.any fun p => (alookup (postingsOf index p.1) d).isSome)
          = false := by
        rw [List.any_eq_false]
        intro p hp hps
        exact hno ⟨p, hp, hps⟩
      rw [hany] at hm
      simp only [Bool.false_eq_true, if_false] at hm
      rw [alookup_eq_none_iff] at hm
      exact hm hd
    · intro ⟨p, hp, hps⟩
      have hany : (q.any fun p => (alookup (postingsOf index p.1) d).isSome)
          = true :=
        List.any_eq_true.2 ⟨p, hp, hps⟩
      rw [hany] at hm
      simp only [if_true] at hm
      have hsome : (alookup m d).isSome := by rw [hm]; rfl
      rw [alookup_isSome_iff] at hsome
      exact hsome
  · intro d s hs
    have hm := hchar d
    simp only [alookup] at hm
    rw [hs] at hm
    by_cases hany :
        (q.any fun p => (alookup (postingsOf index p.1) d).isSome) = true
    · rw [hany] at hm
      simp only [if_true] at hm
      injection hm
    · simp only [Bool.not_eq_true] at hany
      rw [hany] at hm
      simp at hm

/-- Witness for C4: one query term `"t"` (count 1, idf 1), one document
(index 0) carrying `"t"` with tf 2. -/
theorem C4_accumulate_witness :
    ∃ m, accumulate_dot_scores [("t", (1 : ℝ))] [("t", [(0, 2)])]
        [("t", (1 : ℝ))] = some m ∧
      (∀ d, d ∈ m.map Prod.fst ↔
        ∃ p ∈ [("t", (1 : ℝ))],
          (alookup (postingsOf [("t", [(0, 2)])] p.1) d).isSome) ∧
      ∀ d s, alookup m d = some s →
        s = specScore [("t", (1 : ℝ))] [("t", [(0, 2)])] [("t", (1 : ℝ))] d := by
  refine C4_accumulate [("t", (1 : ℝ))] [("t", [(0, 2)])] [("t", (1 : ℝ))]
    ?_ ?_ ?_
  · intro t ht
    simp only [List.map_cons, List.map_nil, List.mem_singleton] at ht
    subst ht
    rfl
  · intro t ht
    simp only [List.map_cons, List.map_nil, List.mem_singleton] at ht
    subst ht
    rfl
  · intro t l hl
    by_cases h : t = "t"
    · subst h
      simp only [alookup, if_pos rfl] at hl
      injection hl with hl
      subst hl
      decide
    · simp [alookup, h] at hl

/-! ## Lookup-safety lemmas (C10) -/

theorem accumTermNorms_isSome {α : Type} [LinearOrderedField α] (score : α) :
    ∀ (l : List (ℕ × ℕ)) (ns : List α), (∀ p ∈ l, p.1 < ns.length) →
      ∃ ns', accumTermNorms score ns l = some ns' ∧ ns'.length = ns.length := by
  intro l
  induction l with
  | nil => exact fun ns _ => ⟨ns, rfl, rfl⟩
  | cons p rest ih =>
      intro ns hb
      have hp : p.1 < ns.length := hb p (List.mem_cons_self _ _)
      obtain ⟨ns', hrun, hlen⟩ :=
        ih (ns.set p.1 (ns.get ⟨p.1, hp⟩ + ((p.2 : α) * score) ^ 2))
          (fun q hq => by
            rw [List.length_set]; exact hb q (List.mem_cons_of_mem _ hq))
      refine ⟨ns', ?_, by rw [hlen, List.length_set]⟩
      rw [accumTermNorms, List.foldlM_cons, dif_pos hp]
      simpa [accumTermNorms] using hrun

theorem docNorms_foldlM_isSome {α : Type} [LinearOrderedField α]
    (index : List (String × List (ℕ × ℕ))) :
    ∀ (E : List (String × α)) (ns : List α),
      (∀ t ∈ E.map Prod.fst, ∃ l, alookup index t = some l) →
      (∀ t l, alookup index t = some l → ∀ p ∈ l, p.1 < ns.length) →
      ∃ ns', E.foldlM (normStep index) ns = some ns' ∧ ns'.length = ns.length := by
  intro E
  induction E with
  | nil => exact fun ns _ _ => ⟨ns, rfl, rfl⟩
  | cons p rest ih =>
      intro ns hcov hb
      obtain ⟨l₀, hl₀⟩ := hcov p.1 (by simp)
      obtain ⟨ns₁, hrun₁, hlen₁⟩ :=
        accumTermNorms_isSome p.2 l₀ ns (hb p.1 l₀ hl₀)
      obtain ⟨ns₂, hrun₂, hlen₂⟩ := ih ns₁
        (fun t ht => hcov t (by simp [ht]))
        (fun t l hl q hq => by rw [hlen₁]; exact hb t l hl q hq)
      refine ⟨ns₂, ?_, by rw [hlen₂, hlen₁]⟩
      rw [List.foldlM_cons]
      have hstep : normStep index ns p = some ns₁ := by
        rw [normStep]; simp [hl₀, hrun₁]
      simp [hstep, hrun₂]

theorem scoreStep_fold_isSome {α : Type} [LinearOrderedField α]
    (idf : List (String × α)) (t : String) (qc : α)
    (hiv : (alookup idf t).isSome) :
    ∀ (l : List (ℕ × ℕ)) (sc : List (ℕ × α)),
      ∃ sc', l.foldlM (scoreStep idf t qc) sc = some sc' := by
  obtain ⟨iv, hiv'⟩ := Option.isSome_iff_exists.1 hiv
  intro l
  induction l with
  | nil => exact fun sc => ⟨sc, rfl⟩
  | cons p rest ih =>
      intro sc
      obtain ⟨sc', hrun⟩ := ih (addScore sc p.1 ((p.2 : α) * iv * qc * iv))
      refine ⟨sc', ?_⟩
      rw [List.foldlM_cons]
      have hstep : scoreStep idf t qc sc p =
          some (addScore sc p.1 ((p.2 : α) * iv * qc * iv)) := by
        rw [scoreStep]; simp [hiv']
      simp [hstep, hrun]

theorem accumulate_foldlM_isSome {α : Type} [LinearOrderedField α]
    (index : List (String × List (ℕ × ℕ))) (idf : List (String × α)) :
    ∀ (q : List (String × α)) (sc : List (ℕ × α)),
      (∀ p ∈ q, (alookup index p.1).isSome ∧ (alookup idf p.1).isSome) →
      ∃ sc', q.foldlM (termStep index idf) sc = some sc' := by
  intro q
  induction q with
  | nil => exact fun sc _ => ⟨sc, rfl⟩
  | cons p rest ih =>
      intro sc hcov
      obtain ⟨hx, hv⟩ := hcov p (List.mem_cons_self _ _)
      obtain ⟨l, hl⟩ := Option.isSome_iff_exists.1 hx
      obtain ⟨sc₁, hrun₁⟩ := scoreStep_fold_isSome idf p.1 p.2 hv l sc
      obtain ⟨sc₂, hrun₂⟩ := ih sc₁ (fun p' hp' => hcov p' (List.mem_cons_of_mem _ hp'))
      refine ⟨sc₂, ?_⟩
      rw [List.foldlM_cons]
      have hstep : termStep index idf sc p = some sc₁ := by
        rw [termStep]; simp [hl, hrun₁]
      simp [hstep, hrun₂]

/-- C10: every term of the IDF table produced by `compute_idf` is a key
of the inverted index it was computed from; consequently the
`index[term]` lookups of `compute_doc_norms` (given in-range postings)
and the `index[query_word]` / `idf[query_word]` lookups of
`accumulate_dot_scores` (for a query vector inside the vocabulary) never
hit a missing key — neither computation raises. -/
theorem C10_idf_vocab_safe {α : Type} [LinearOrderedField α]
    (w : ℕ → ℕ → α) (idx : List (String × List (ℕ × ℕ))) (n_docs : ℕ)
    (min_df : ℤ) (mr : ℚ) :
    (∀ t v, alookup (compute_idf w idx n_docs min_df mr) t = some v →
      ∃ l, alookup idx t = some l) ∧
    (∀ sqrt : α → α, (∀ t l, alookup idx t = some l → ∀ p ∈ l, p.1 < n_docs) →
      (compute_doc_norms sqrt idx (compute_idf w idx n_docs min_df mr)
        n_docs).isSome) ∧
    (∀ q : List (String × α),
      (∀ t ∈ q.map Prod.fst,
        (alookup (compute_idf w idx n_docs min_df mr) t).isSome) →
      (accumulate_dot_scores q idx
        (compute_idf w idx n_docs min_df mr)).isSome) := by
  refine ⟨fun t v h => compute_idf_mem_index w idx n_docs min_df mr t v h,
    ?_, ?_⟩
  · intro sqrt hb
    obtain ⟨ns', hrun, _⟩ := docNorms_foldlM_isSome idx
      (compute_idf w idx n_docs min_df mr)
      (List.replicate n_docs (0 : α))
      (fun t ht => by
        obtain ⟨v, hv⟩ := Option.isSome_iff_exists.1
          ((alookup_isSome_iff _ t).2 ht)
        exact compute_idf_mem_index w idx n_docs min_df mr t v hv)
      (fun t l hl p hp => by
        rw [List.length_replicate]; exact hb t l hl p hp)
    rw [compute_doc_norms, hrun]
    rfl
  · intro q hq
    obtain ⟨sc', hrun⟩ := accumulate_foldlM_isSome idx
      (compute_idf w idx n_docs min_df mr) q []
      (fun p hp => by
        have hv := hq p.1 (List.mem_map_of_mem Prod.fst hp)
        obtain ⟨v, hv'⟩ := Option.isSome_iff_exists.1 hv
        obtain ⟨l, hl⟩ := compute_idf_mem_index w idx n_docs min_df mr p.1 v hv'
        exact ⟨by rw [hl]; rfl, hv⟩)
    rw [accumulate_dot_scores, hrun]
    rfl

/-- Witness for C10: the two-document index `{"a": [(0, 1)]}` with
thresholds `min_df = 0`, `max_df_ratio = 1` (so `"a"` is in the table). -/
theorem C10_idf_vocab_safe_witness :
    (compute_doc_norms (id : ℚ → ℚ) [("a", [(0, 1)])]
      (compute_idf (fun _ _ => (0 : ℚ)) [("a", [(0, 1)])] 2 0 1) 2).isSome ∧
    (accumulate_dot_scores [("a", (1 : ℚ))] [("a", [(0, 1)])]
      (compute_idf (fun _ _ => (0 : ℚ)) [("a", [(0, 1)])] 2 0 1)).isSome := by
  have htbl : compute_idf (fun _ _ => (0 : ℚ)) [("a", [(0, 1)])] 2 0 1 =
      [("a", 0)] := by
    norm_num [compute_idf, List.filterMap_cons]
  constructor
  · refine (C10_idf_vocab_safe (fun _ _ => (0 : ℚ)) [("a", [(0, 1)])] 2 0 1).2.1
      id ?_
    intro t l hl p hp
    by_cases h : t = "a"
    · subst h
      simp only [alookup, if_pos rfl] at hl
      injection hl with hl
      subst hl
      simp only [List.mem_singleton] at hp
      subst hp
      decide
    · simp [alookup, h] at hl
  · refine (C10_idf_vocab_safe (fun _ _ => (0 : ℚ)) [("a", [(0, 1)])] 2 0 1).2.2
      [("a", (1 : ℚ))] ?_
    intro t ht
    simp only [List.map_cons, List.map_nil, List.mem_singleton] at ht
    subst ht
    rw [htbl]
    rfl

/-! ## Inverted-index builder lemmas (C6) -/

theorem getD_append_length {γ : Type} (l : List γ) (x d : γ) :
    (l ++ [x]).getD l.length d = x := by
  induction l with
  | nil => rfl
  | cons a l ih => simpa [List.getD] using ih

theorem set_append_length {γ : Type} (l : List γ) (x y : γ) :
    (l ++ [x]).set l.length y = l ++ [y] := by
  induction l with
  | nil => rfl
  | cons a l ih => simp [List.set, ih]

/-- The postings entry document `p.1` contributes for token `tok`:
present iff the token occurs, carrying the exact occurrence count. -/
def specEntry (tok : String) (p : ℕ × List String) : Option (ℕ × ℕ) :=
  if p.2.count tok = 0 then none else some (p.1, p.2.count tok)

/-- The postings list the specification assigns to `tok` over the
documents of `msgs` enumerated from `m`. -/
def postingsSpecFrom (m : ℕ) (msgs : List (List String)) (tok : String) :
    List (ℕ × ℕ) :=
  (List.enumFrom m msgs).filterMap (specEntry tok)

/-- Appending the postings contributed by later documents to the postings
already present for a token (absent = no entry). -/
def extendPostings : Option (List (ℕ × ℕ)) → List (ℕ × ℕ) → Option (List (ℕ × ℕ))
  | o, [] => o
  | none, l => some l
  | some l₀, l => some (l₀ ++ l)

theorem extendPostings_snoc (o₀ : Option (List (ℕ × ℕ))) (x : ℕ × ℕ)
    (S : List (ℕ × ℕ)) :
    extendPostings (some ((o₀.getD []) ++ [x])) S = extendPostings o₀ (x :: S) := by
  cases o₀ <;> cases S <;> simp [extendPostings]

theorem alookup_snoc {κ β : Type} [DecidableEq κ] (fi : List (κ × β)) (k : κ)
    (v : β) (a : κ) :
    alookup (fi ++ [(k, v)]) a =
      match alookup fi a with
      | some w => some w
      | none => if a = k then some v else none := by
  rw [alookup_append]
  cases alookup fi a <;> simp [alookup, Option.orElse]

theorem processTok_fold (m : ℕ) (iid₀ : List (String × List (ℕ × ℕ))) :
    ∀ (rest seen : List String) (iid : List (String × List (ℕ × ℕ)))
      (fi : List (String × ℕ)),
      (∀ tok, alookup fi tok = none → alookup iid tok = alookup iid₀ tok) →
      (∀ tok, alookup fi tok ≠ none ↔ 0 < seen.count tok) →
      (∀ tok k, alookup fi tok = some k →
        alookup iid tok =
          some ((alookup iid₀ tok).getD [] ++ [(m, seen.count tok)]) ∧
        k = ((alookup iid₀ tok).getD []).length) →
      ∀ tok,
        alookup (rest.foldl (processTok m) ⟨iid, fi⟩).iid tok =
          if (seen ++ rest).count tok = 0 then alookup iid₀ tok
          else some ((alookup iid₀ tok).getD [] ++
            [(m, (seen ++ rest).count tok)]) := by
  intro rest
  induction rest with
  | nil =>
      intro seen iid fi hpres ha hc tok
      simp only [List.foldl_nil, List.append_nil]
      cases hfi : alookup fi tok with
      | none =>
          have h0 : seen.count tok = 0 := by
            by_contra hne
            exact absurd ((ha tok).2 (Nat.pos_of_ne_zero hne)) (by simp [hfi])
          rw [if_pos h0]
          exact hpres tok hfi
      | some k =>
          have hpos : 0 < seen.count tok := (ha tok).1 (by simp [hfi])
          rw [if_neg (Nat.pos_iff_ne_zero.1 hpos)]
          exact (hc tok k hfi).1
  | cons t rest' ih =>
      intro seen iid fi hpres ha hc tok
      rw [List.foldl_cons]
      cases hiid : alookup iid t with
      | none =>
          have hfit : alookup fi t = none := by
            cases hfi : alookup fi t with
            | none => rfl
            | some k =>
                have := (hc t k hfi).1
                rw [hiid] at this
                cases this
          have hct : seen.count t = 0 := by
            by_contra hne
            exact absurd ((ha t).2 (Nat.pos_of_ne_zero hne)) (by simp [hfit])
          have hiid₀t : alookup iid₀ t = none := by
            rw [← hpres t hfit]; exact hiid
          have hstep : processTok m ⟨iid, fi⟩ t =
              ⟨iid ++ [(t, [(m, 1)])], fi ++ [(t, 0)]⟩ := by
            rw [processTok]; simp [hiid]
          rw [hstep]
          have hp' : ∀ tok', alookup (fi ++ [(t, 0)]) tok' = none →
              alookup (iid ++ [(t, [(m, 1)])]) tok' = alookup iid₀ tok' := by
            intro tok' h'
            rw [alookup_snoc] at h'
            cases hfi' : alookup fi tok' with
            | some w => rw [hfi'] at h'; cases h'
            | none =>
                rw [hfi'] at h'
                by_cases ht' : tok' = t
                · rw [if_pos ht'] at h'; cases h'
                · rw [alookup_snoc]
                  rw [hpres tok' hfi']
                  cases h0 : alookup iid₀ tok' with
                  | some w => rfl
                  | none => simp [ht']
          have ha' : ∀ tok', alookup (fi ++ [(t, 0)]) tok' ≠ none ↔
              0 < (seen ++ [t]).count tok' := by
            intro tok'
            rw [alookup_snoc, List.count_append]
            cases hfi' : alookup fi tok' with
            | some w =>
                have := (ha tok').1 (by simp [hfi'])
                simp only []
                constructor
                · intro _; omega
                · intro _; simp
            | none =>
                have h0 : seen.count tok' = 0 := by
                  by_contra hne
                  exact absurd ((ha tok').2 (Nat.pos_of_ne_zero hne))
                    (by simp [hfi'])
                by_cases ht' : tok' = t
                · subst ht'
                  simp [h0, List.count_cons]
                · simp only [if_neg ht', h0]
                  have hc1 : ([t].count tok') = 0 := by
                    simp [List.count_cons, ht']
                  simp [hc1]
          have hc' : ∀ tok' k', alookup (fi ++ [(t, 0)]) tok' = some k' →
              alookup (iid ++ [(t, [(m, 1)])]) tok' =
                some ((alookup iid₀ tok').getD [] ++
                  [(m, (seen ++ [t]).count tok')]) ∧
              k' = ((alookup iid₀ tok').getD []).length := by
            intro tok' k' h'
            rw [alookup_snoc] at h'
            cases hfi' : alookup fi tok' with
            | some w =>
                rw [hfi'] at h'
                injection h' with h'
                have hold := hc tok' w hfi'
                have ht' : tok' ≠ t := by
                  intro hh
                  rw [hh, hfit] at hfi'
                  cases hfi'
                have hcnt : (seen ++ [t]).count tok' = seen.count tok' := by
                  rw [List.count_append]
                  simp [List.count_cons, ht']
                rw [alookup_snoc, hold.1, hcnt]
                exact ⟨rfl, h' ▸ hold.2⟩
            | none =>
                rw [hfi'] at h'
                by_cases ht' : tok' = t
                · rw [if_pos ht'] at h'
                  injection h' with h'
                  rw [ht']
                  have hcnt : (seen ++ [t]).count t = 1 := by
                    rw [List.count_append, hct]
                    simp [List.count_cons]
                  rw [alookup_snoc, hiid, hiid₀t, hcnt]
                  exact ⟨by simp, by simp [← h']⟩
                · rw [if_neg ht'] at h'
                  cases h'
          have hfin := ih (seen ++ [t]) (iid ++ [(t, [(m, 1)])])
            (fi ++ [(t, 0)]) hp' ha' hc' tok
          rw [show (seen ++ [t]) ++ rest' = seen ++ (t :: rest') by
            rw [List.append_assoc]; rfl] at hfin
          exact hfin
      | some postings =>
          cases hfit : alookup fi t with
          | none =>
              have hct : seen.count t = 0 := by
                by_contra hne
                exact absurd ((ha t).2 (Nat.pos_of_ne_zero hne))
                  (by simp [hfit])
              have hiid₀t : alookup iid₀ t = some postings := by
                rw [← hpres t hfit]; exact hiid
              have hstep : processTok m ⟨iid, fi⟩ t =
                  ⟨aupdate iid t (postings ++ [(m, 1)]),
                    fi ++ [(t, postings.length)]⟩ := by
                rw [processTok]; simp [hiid, hfit]
              rw [hstep]
              have hp' : ∀ tok', alookup (fi ++ [(t, postings.length)]) tok' = none →
                  alookup (aupdate iid t (postings ++ [(m, 1)])) tok' =
                    alookup iid₀ tok' := by
                intro tok' h'
                rw [alookup_snoc] at h'
                cases hfi' : alookup fi tok' with
                | some w => rw [hfi'] at h'; cases h'
                | none =>
                    rw [hfi'] at h'
                    by_cases ht' : tok' = t
                    · rw [if_pos ht'] at h'; cases h'
                    · rw [alookup_aupdate, if_neg ht']
                      exact hpres tok' hfi'
              have ha' : ∀ tok', alookup (fi ++ [(t, postings.length)]) tok' ≠ none ↔
                  0 < (seen ++ [t]).count tok' := by
                intro tok'
                rw [alookup_snoc, List.count_append]
                cases hfi' : alookup fi tok' with
                | some w =>
                    have := (ha tok').1 (by simp [hfi'])
                    simp only []
                    constructor
                    · intro _; omega
                    · intro _; simp
                | none =>
                    have h0 : seen.count tok' = 0 := by
                      by_contra hne
                      exact absurd ((ha tok').2 (Nat.pos_of_ne_zero hne))
                        (by simp [hfi'])
                    by_cases ht' : tok' = t
                    · subst ht'
                      simp [h0, List.count_cons]
                    · simp only [if_neg ht', h0]
                      have hc1 : ([t].count tok') = 0 := by
                        simp [List.count_cons, ht']
                      simp [hc1]
              have hc' : ∀ tok' k',
                  alookup (fi ++ [(t, postings.length)]) tok' = some k' →
                  alookup (aupdate iid t (postings ++ [(m, 1)])) tok' =
                    some ((alookup iid₀ tok').getD [] ++
                      [(m, (seen ++ [t]).count tok')]) ∧
                  k' = ((alookup iid₀ tok').getD []).length := by
                intro tok' k' h'
                rw [alookup_snoc] at h'
                cases hfi' : alookup fi tok' with
                | some w =>
                    rw [hfi'] at h'
                    injection h' with h'
                    have hold := hc tok' w hfi'
                    have ht' : tok' ≠ t := by
                      intro hh
                      rw [hh, hfit] at hfi'
                      cases hfi'
                    have hcnt : (seen ++ [t]).count tok' = seen.count tok' := by
                      rw [List.count_append]
                      simp [List.count_cons, ht']
                    rw [alookup_aupdate, if_neg ht', hold.1, hcnt]
                    exact ⟨rfl, h' ▸ hold.2⟩
                | none =>
                    rw [hfi'] at h'
                    by_cases ht' : tok' = t
                    · rw [if_pos ht'] at h'
                      injection h' with h'
                      rw [ht']
                      have hcnt : (seen ++ [t]).count t = 1 := by
                        rw [List.count_append, hct]
                        simp [List.count_cons]
                      rw [alookup_aupdate, if_pos rfl, hiid, hiid₀t, hcnt]
                      simp [← h']
                    · rw [if_neg ht'] at h'
                      cases h'
              have hfin := ih (seen ++ [t]) (aupdate iid t (postings ++ [(m, 1)]))
                (fi ++ [(t, postings.length)]) hp' ha' hc' tok
              rw [show (seen ++ [t]) ++ rest' = seen ++ (t :: rest') by
                rw [List.append_assoc]; rfl] at hfin
              exact hfin
          | some k =>
              obtain ⟨hiidt, hk⟩ := hc t k hfit
              rw [hiid] at hiidt
              injection hiidt with hiidt
              have hstep : processTok m ⟨iid, fi⟩ t =
                  ⟨aupdate iid t
                    (postings.set k (m, (postings.getD k (0, 0)).2 + 1)), fi⟩ := by
                rw [processTok]; simp [hiid, hfit]
              rw [hstep]
              have hset : postings.set k (m, (postings.getD k (0, 0)).2 + 1) =
                  (alookup iid₀ t).getD [] ++ [(m, seen.count t + 1)] := by
                rw [hiidt, hk, getD_append_length, set_append_length]
              have hp' : ∀ tok', alookup fi tok' = none →
                  alookup (aupdate iid t
                    (postings.set k (m, (postings.getD k (0, 0)).2 + 1))) tok' =
                    alookup iid₀ tok' := by
                intro tok' h'
                have ht' : tok' ≠ t := by
                  intro hh
                  rw [hh, hfit] at h'
                  cases h'
                rw [alookup_aupdate, if_neg ht']
                exact hpres tok' h'
              have ha' : ∀ tok', alookup fi tok' ≠ none ↔
                  0 < (seen ++ [t]).count tok' := by
                intro tok'
                rw [List.count_append]
                by_cases ht' : tok' = t
                · rw [ht']
                  have h1 : ([t] : List String).count t = 1 := by simp
                  rw [h1]
                  constructor
                  · intro _; omega
                  · intro _; simp [hfit]
                · have hc1 : ([t].count tok') = 0 := by
                    simp [List.count_cons, ht']
                  rw [hc1]
                  simpa using ha tok'
              have hc' : ∀ tok' k', alookup fi tok' = some k' →
                  alookup (aupdate iid t
                    (postings.set k (m, (postings.getD k (0, 0)).2 + 1))) tok' =
                    some ((alookup iid₀ tok').getD [] ++
                      [(m, (seen ++ [t]).count tok')]) ∧
                  k' = ((alookup iid₀ tok').getD []).length := by
                intro tok' k' h'
                by_cases ht' : tok' = t
                · rw [ht'] at h' ⊢
                  have hkk : k' = k := by
                    rw [h'] at hfit
                    exact Option.some.inj hfit
                  have hcnt : (seen ++ [t]).count t = seen.count t + 1 := by
                    rw [List.count_append]
                    simp [List.count_cons]
                  rw [alookup_aupdate, if_pos rfl, hiid, hcnt, hset]
                  simp only [Option.isSome_some, if_true]
                  exact ⟨trivial, by rw [hkk, hk]⟩
                · have hcnt : (seen ++ [t]).count tok' = seen.count tok' := by
                    rw [List.count_append]
                    simp [List.count_cons, ht']
                  rw [alookup_aupdate, if_neg ht', hcnt]
                  exact hc tok' k' h'
              have hfin := ih (seen ++ [t])
                (aupdate iid t
                  (postings.set k (m, (postings.getD k (0, 0)).2 + 1))) fi
                hp' ha' hc' tok
              rw [show (seen ++ [t]) ++ rest' = seen ++ (t :: rest') by
                rw [List.append_assoc]; rfl] at hfin
              exact hfin

theorem processDoc_lookup (iid₀ : List (String × List (ℕ × ℕ))) (m : ℕ)
    (toks : List String) (tok : String) :
    alookup (processDoc iid₀ m toks) tok =
      if toks.count tok = 0 then alookup iid₀ tok
      else some ((alookup iid₀ tok).getD [] ++ [(m, toks.count tok)]) := by
  have h := processTok_fold m iid₀ toks [] iid₀ []
    (fun _ _ => rfl)
    (fun tok => by simp [alookup])
    (fun tok k h => by simp [alookup] at h)
    tok
  simpa [processDoc] using h

theorem build_fold_lookup (tok : String) :
    ∀ (msgs : List (List String)) (m : ℕ)
      (iid₀ : List (String × List (ℕ × ℕ))),
      alookup ((List.enumFrom m msgs).foldl
        (fun iid p => processDoc iid p.1 p.2) iid₀) tok =
        extendPostings (alookup iid₀ tok) (postingsSpecFrom m msgs tok) := by
  intro msgs
  induction msgs with
  | nil =>
      intro m iid₀
      show alookup iid₀ tok = extendPostings (alookup iid₀ tok) []
      cases alookup iid₀ tok <;> rfl
  | cons toks rest ih =>
      intro m iid₀
      have hspec : postingsSpecFrom m (toks :: rest) tok =
          if toks.count tok = 0 then postingsSpecFrom (m + 1) rest tok
          else (m, toks.count tok) :: postingsSpecFrom (m + 1) rest tok := by
        rw [postingsSpecFrom,
          show List.enumFrom m (toks :: rest) =
            (m, toks) :: List.enumFrom (m + 1) rest from rfl,
          List.filterMap_cons]
        by_cases hcnt : toks.count tok = 0 <;>
          simp [specEntry, hcnt, postingsSpecFrom]
      rw [show List.enumFrom m (toks :: rest) =
        (m, toks) :: List.enumFrom (m + 1) rest from rfl]
      simp only [List.foldl_cons]
      rw [ih (m + 1) (processDoc iid₀ m toks), processDoc_lookup, hspec]
      by_cases hcnt : toks.count tok = 0
      · rw [if_pos hcnt, if_pos hcnt]
      · rw [if_neg hcnt, if_neg hcnt]
        exact extendPostings_snoc _ _ _

theorem build_lookup (msgs : List (List String)) (tok : String) :
    alookup (build_inverted_index msgs) tok =
      if postingsSpecFrom 0 msgs tok = [] then none
      else some (postingsSpecFrom 0 msgs tok) := by
  have h := build_fold_lookup tok msgs 0 []
  rw [show alookup ([] : List (String × List (ℕ × ℕ))) tok = none from rfl] at h
  rw [build_inverted_index, show msgs.enum = List.enumFrom 0 msgs from rfl, h]
  cases postingsSpecFrom 0 msgs tok <;> simp [extendPostings]

theorem postingsSpecFrom_ge (tok : String) :
    ∀ (msgs : List (List String)) (m : ℕ) (p : ℕ × ℕ),
      p ∈ postingsSpecFrom m msgs tok → m ≤ p.1 := by
  intro msgs
  induction msgs with
  | nil => intro m p hp; simp [postingsSpecFrom, List.enumFrom] at hp
  | cons toks rest ih =>
      intro m p hp
      rw [postingsSpecFrom,
        show List.enumFrom m (toks :: rest) =
          (m, toks) :: List.enumFrom (m + 1) rest from rfl,
        List.filterMap_cons] at hp
      by_cases hcnt : toks.count tok = 0
      · simp only [specEntry, hcnt, if_pos rfl] at hp
        have := ih (m + 1) p (by rw [postingsSpecFrom]; exact hp)
        omega
      · simp only [specEntry, if_neg hcnt] at hp
        rcases List.mem_cons.1 hp with hh | hh
        · rw [hh]
        · have := ih (m + 1) p (by rw [postingsSpecFrom]; exact hh)
          omega

theorem postingsSpecFrom_pairwise (tok : String) :
    ∀ (msgs : List (List String)) (m : ℕ),
      (postingsSpecFrom m msgs tok).Pairwise (fun a b => a.1 < b.1) := by
  intro msgs
  induction msgs with
  | nil => intro m; simp [postingsSpecFrom, List.enumFrom]
  | cons toks rest ih =>
      intro m
      rw [postingsSpecFrom,
        show List.enumFrom m (toks :: rest) =
          (m, toks) :: List.enumFrom (m + 1) rest from rfl,
        List.filterMap_cons]
      by_cases hcnt : toks.count tok = 0
      · simp only [specEntry, hcnt, if_pos rfl]
        exact ih (m + 1)
      · simp only [specEntry, if_neg hcnt]
        refine List.Pairwise.cons ?_ (ih (m + 1))
        intro b hb
        have := postingsSpecFrom_ge tok rest (m + 1) b
          (by rw [postingsSpecFrom]; exact hb)
        simp only []
        omega

theorem postingsSpecFrom_val (tok : String) :
    ∀ (msgs : List (List String)) (m : ℕ) (p : ℕ × ℕ),
      p ∈ postingsSpecFrom m msgs tok →
      p.2 = (msgs.getD (p.1 - m) []).count tok ∧ 0 < p.2 := by
  intro msgs
  induction msgs with
  | nil => intro m p hp; simp [postingsSpecFrom, List.enumFrom] at hp
  | cons toks rest ih =>
      intro m p hp
      rw [postingsSpecFrom,
        show List.enumFrom m (toks :: rest) =
          (m, toks) :: List.enumFrom (m + 1) rest from rfl,
        List.filterMap_cons] at hp
      by_cases hcnt : toks.count tok = 0
      · simp only [specEntry, hcnt, if_pos rfl] at hp
        have hp' : p ∈ postingsSpecFrom (m + 1) rest tok := by
          rw [postingsSpecFrom]; exact hp
        have hge := postingsSpecFrom_ge tok rest (m + 1) p hp'
        obtain ⟨hv, hpos⟩ := ih (m + 1) p hp'
        refine ⟨?_, hpos⟩
        rw [hv, show p.1 - m = (p.1 - (m + 1)) + 1 by omega]
        rfl
      · simp only [specEntry, if_neg hcnt] at hp
        rcases List.mem_cons.1 hp with hh | hh
        · rw [hh]
          simp only [Nat.sub_self]
          exact ⟨rfl, Nat.pos_of_ne_zero hcnt⟩
        · have hp' : p ∈ postingsSpecFrom (m + 1) rest tok := by
            rw [postingsSpecFrom]; exact hh
          have hge := postingsSpecFrom_ge tok rest (m + 1) p hp'
          obtain ⟨hv, hpos⟩ := ih (m + 1) p hp'
          refine ⟨?_, hpos⟩
          rw [hv, show p.1 - m = (p.1 - (m + 1)) + 1 by omega]
          rfl

/-- C6: every postings list produced by `build_inverted_index` is
strictly increasing by document index (so each document appears at most
once), every entry's term frequency is the exact occurrence count of the
term in that document's token sequence, and the two spec examples hold. -/
theorem C6_inverted_index :
    (∀ (msgs : List (List String)) (tok : String) (l : List (ℕ × ℕ)),
        alookup (build_inverted_index msgs) tok = some l →
        l.Pairwise (fun a b => a.1 < b.1) ∧ (l.map Prod.fst).Nodup ∧
        ∀ p ∈ l, p.2 = (msgs.getD p.1 []).count tok ∧ 0 < p.2) ∧
    alookup (build_inverted_index
      [["to", "be", "or", "not", "to", "be"], ["do", "be", "do", "be", "do"]])
      "be" = some [(0, 2), (1, 2)] ∧
    alookup (build_inverted_index
      [["to", "be", "or", "not", "to", "be"], ["do", "be", "do", "be", "do"]])
      "not" = some [(0, 1)] := by
  refine ⟨?_, by decide, by decide⟩
  intro msgs tok l hl
  rw [build_lookup] at hl
  by_cases hS : postingsSpecFrom 0 msgs tok = []
  · rw [if_pos hS] at hl; cases hl
  · rw [if_neg hS] at hl
    injection hl with hl
    subst hl
    have hpw := postingsSpecFrom_pairwise tok msgs 0
    refine ⟨hpw, ?_, ?_⟩
    · have hne : (postingsSpecFrom 0 msgs tok).Pairwise
          (fun a b => a.1 ≠ b.1) :=
        hpw.imp (fun h => Nat.ne_of_lt h)
      exact (List.pairwise_map).2 hne
    · intro p hp
      have hv := postingsSpecFrom_val tok msgs 0 p hp
      simpa using hv

/-- Witness for C6's general part, at the spec's own example corpus. -/
theorem C6_inverted_index_witness :
    List.Pairwise (fun a b => a.1 < b.1) [(0, 2), (1, 2)] ∧
    (([(0, 2), (1, 2)] : List (ℕ × ℕ)).map Prod.fst).Nodup ∧
    ∀ p ∈ ([(0, 2), (1, 2)] : List (ℕ × ℕ)),
      p.2 = ([["to", "be", "or", "not", "to", "be"],
        ["do", "be", "do", "be", "do"]].getD p.1 []).count "be" ∧ 0 < p.2 :=
  C6_inverted_index.1
    [["to", "be", "or", "not", "to", "be"], ["do", "be", "do", "be", "do"]]
    "be" [(0, 2), (1, 2)] (by decide)
